import Mathlib

/-!
# redjet: the connection pool of `conn.go`

A shallow embedding of `conn.go` (package `redjet`): the `conn` wrapper, the
`connPool` structure, `newConnPool`, the background goroutine `clean`, and the
two caller operations `tryGet` and `put`.

Modelling choices.

* A raw `net.Conn` is an opaque identity (`NetConn`); calling `Close` on it is
  recorded in a log (`State.closed`, most recent first).
* A `*conn` is modelled by the value it points to.  The only write through such
  a pointer is `c.lastUsed = time.Now()` in `tryGet`, made after the pointer has
  left the channel, so no aliasing with the channel contents can be observed.
* `chan *conn` with capacity `size` is a FIFO buffer with the two non-blocking
  primitives Go's `select` with a `default` case gives (`trySend`, `tryRecv`).
  Channel operations are atomic, so concurrent executions are interleavings of
  the atomic steps below.
* `time.Time` is an integer number of nanoseconds counted from Go's zero
  `time.Time`; `time.Duration` is a signed 64-bit number of nanoseconds.
  `time.Since` saturates at the ends of the `Duration` range as in Go.
* The goroutine `clean` is a step machine: its control point is part of the
  state (`CleanPC`) and `clean` performs one atomic step of it.
* The builtin `make(chan *conn, n)` and `time.NewTicker` are modelled by the
  panics the Go runtime raises for their arguments (`makeChan`, `NewTicker`);
  exhaustion of memory is not modelled, for this allocation as for any other.
-/

namespace Redjet

/-! ## Time -/

/-- Identity of a raw `net.Conn` handle. -/
abbrev NetConn := Nat

/-- An instant: nanoseconds elapsed since Go's zero `time.Time`. -/
abbrev Time := Int

/-- Go's `time.Duration`: nanoseconds, carried in a signed 64-bit integer. -/
abbrev Duration := Int

/-- Largest `time.Duration` (`1<<63 - 1`). -/
def maxDuration : Duration := 9223372036854775807

/-- Smallest `time.Duration` (`-1 << 63`). -/
def minDuration : Duration := -9223372036854775808

/-- The zero value of `time.Time`, which a `conn` literal without a
`lastUsed` field carries. -/
def zeroTime : Time := 0

/-- Reduction of an integer to the signed 64-bit range (two's complement
wrap-around), the result of Go's `int64` arithmetic. -/
def wrap64 (x : Int) : Int :=
  (x + 9223372036854775808) % 18446744073709551616 - 9223372036854775808

/-- Go's `Time.Sub`: the difference `t - u`, saturated to the range of
`Duration`. -/
def timeSub (t u : Time) : Duration :=
  if maxDuration < t - u then maxDuration
  else if t - u < minDuration then minDuration
  else t - u

/-- Go's `time.Since(t)`, with the clock reading `now` made explicit. -/
def timeSince (now t : Time) : Duration := timeSub now t

/-! ## Channels -/

/-- A buffered Go channel: its queued elements (oldest first) and capacity. -/
structure Chan (α : Type) where
  buf : List α
  cap : Nat
deriving DecidableEq, Repr

/-- Non-blocking send (`select { case ch <- x: ... default: ... }`): succeeds
exactly when the buffer has room. -/
def Chan.trySend {α : Type} (ch : Chan α) (x : α) : Option (Chan α) :=
  if ch.buf.length < ch.cap then some { ch with buf := ch.buf ++ [x] } else none

/-- Non-blocking receive (`select { case x := <-ch: ... default: ... }`):
takes the oldest element if there is one. -/
def Chan.tryRecv {α : Type} (ch : Chan α) : Option (α × Chan α) :=
  match ch.buf with
  | [] => none
  | x :: rest => some (x, { ch with buf := rest })

/-! ## Data model -/

/-- The struct `conn`: an embedded `net.Conn` and the `lastUsed` time. -/
structure conn where
  Conn : NetConn
  lastUsed : Time
deriving DecidableEq, Repr

/-- The struct `connPool`.  `canceled` records whether the channel of that
name has been closed; `cleanTicker` records the period of the ticker. -/
structure connPool where
  free : Chan conn
  canceled : Bool
  cleanTicker : Duration
  idleTimeout : Duration
deriving DecidableEq, Repr

/-- Control points of the goroutine `clean`. -/
inductive CleanPC where
  /-- Blocked in the outer `select` (line 39). -/
  | outerSelect
  /-- About to execute the inner `select` (line 44). -/
  | innerSelect
  /-- Holding a received entry, about to execute `p.free <- c` (line 51). -/
  | sending (c : conn)
  /-- The call of `clean` has returned (line 41 or line 53). -/
  | returned
deriving DecidableEq, Repr

/-- The pool together with what it acts on: the log of `Close` calls made on
raw connections and the control point of the `clean` goroutine. -/
structure State where
  p : connPool
  closed : List NetConn
  pc : CleanPC
deriving DecidableEq, Repr

/-- The run-time panics `newConnPool` can raise. -/
inductive Panic where
  /-- Raised by `make(chan *conn, size)` for a `size` that is negative or out
  of the range the runtime can allocate (`makechan: size out of range`). -/
  | makechanSize
  /-- Raised by `time.NewTicker` for a non-positive period. -/
  | nonPositiveInterval
deriving DecidableEq, Repr

/-! ## Operations -/

/-- Number of bytes the Go runtime can allocate (`maxAlloc`; the value of
64-bit platforms with 48 address bits, `1 << 48`). -/
def maxAlloc : Int := 281474976710656

/-- Number of bytes of the runtime's channel header (`hchanSize`; 96 on 64-bit
platforms). -/
def hchanSize : Int := 96

/-- Number of bytes of one element of a `chan *conn`, a pointer. -/
def ptrSize : Int := 8

/-- Go's `make(chan *conn, size)`: the runtime panics when `size` is negative
or when the buffer, `size` elements of `ptrSize` bytes, exceeds
`maxAlloc - hchanSize` bytes; otherwise the channel is empty with capacity
`size`. -/
def makeChan (size : Int) : Except Panic (Chan conn) :=
  if size < 0 ∨ maxAlloc - hchanSize < ptrSize * size then Except.error Panic.makechanSize
  else Except.ok { buf := [], cap := size.toNat }

/-- Go's `time.NewTicker(d)`: panics for a non-positive `d`; otherwise the
ticker fires with period `d`. -/
def NewTicker (d : Duration) : Except Panic Duration :=
  if d ≤ 0 then Except.error Panic.nonPositiveInterval else Except.ok d

/-- The function `newConnPool(size, idleTimeout)`: allocates the channel,
creates the ticker with period `idleTimeout * 3` (64-bit arithmetic) and
starts `clean`, which blocks in its outer `select`.  The fields of the
composite literal are evaluated in order, so `make` runs before
`time.NewTicker`, and a panic of either leaves no pool. -/
def newConnPool (size : Int) (idleTimeout : Duration) : Except Panic State :=
  match makeChan size with
  | Except.error e => Except.error e
  | Except.ok free =>
      match NewTicker (wrap64 (idleTimeout * 3)) with
      | Except.error e => Except.error e
      | Except.ok period =>
          Except.ok
            { p := { free := free
                     canceled := false
                     cleanTicker := period
                     idleTimeout := idleTimeout }
              closed := []
              pc := CleanPC.outerSelect }

/-- The method `tryGet`: a non-blocking receive from `p.free`; the received
entry is stamped with the current time.  The `ctx` argument is never read and
is left out. -/
def tryGet (now : Time) (s : State) : Option conn × Bool × State :=
  match s.p.free.tryRecv with
  | some (c, ch) =>
      (some { c with lastUsed := now }, true, { s with p := { s.p with free := ch } })
  | none => (none, false, s)

set_option linter.unusedVariables false in
/-- The method `put`: wraps `nc` in a new `conn` (whose `lastUsed` is the zero
time) and tries a non-blocking send; when the channel is full the connection is
closed. -/
def put (nc : NetConn) (idleTimeout : Duration) (s : State) : State :=
  let c : conn := { Conn := nc, lastUsed := zeroTime }
  match s.p.free.trySend c with
  | some ch => { s with p := { s.p with free := ch } }
  | none => { s with closed := c.Conn :: s.closed }

/-- What lets the goroutine `clean` take a step. -/
inductive Wake where
  /-- The channel `p.canceled` is ready (it has been closed). -/
  | canceled
  /-- The channel `p.cleanTicker.C` delivers a tick. -/
  | tick
  /-- The goroutine is scheduled inside its inner loop; `now` is what the clock
  reads should it call `time.Since`. -/
  | run (now : Time)
deriving DecidableEq, Repr

/-- One atomic step of the method `clean`.

* In the outer `select`, a ready `p.canceled` makes it return and a tick makes
  it enter the inner loop; nothing else wakes it.
* In the inner `select`, a received entry is closed when
  `time.Since(c.lastUsed) > p.idleTimeout` and is otherwise about to be sent
  back; with nothing to receive, the `default` case returns from `clean`.
* The statement `p.free <- c` is a blocking send: it completes when the buffer
  has room and otherwise the goroutine stays where it is.

Outside the outer `select` the goroutine looks at neither `p.canceled` nor the
ticker, and it never comes back to the outer `select`, so a tick or a
cancellation arriving then is never consumed. -/
def clean (w : Wake) (s : State) : State :=
  match s.pc, w with
  | CleanPC.outerSelect, Wake.canceled => { s with pc := CleanPC.returned }
  | CleanPC.outerSelect, Wake.tick => { s with pc := CleanPC.innerSelect }
  | CleanPC.innerSelect, Wake.run now =>
      match s.p.free.tryRecv with
      | some (c, ch) =>
          if timeSince now c.lastUsed > s.p.idleTimeout then
            { p := { s.p with free := ch }
              closed := c.Conn :: s.closed
              pc := CleanPC.innerSelect }
          else
            { s with p := { s.p with free := ch }, pc := CleanPC.sending c }
      | none => { s with pc := CleanPC.returned }
  | CleanPC.sending c, Wake.run _ =>
      match s.p.free.trySend c with
      | some ch => { s with p := { s.p with free := ch }, pc := CleanPC.innerSelect }
      | none => s
  | _, _ => s

/-! ## Executions -/

/-- The atomic events of an execution of the pool. -/
inductive Event where
  /-- A caller runs `put(nc, idleTimeout)`. -/
  | put (nc : NetConn) (idleTimeout : Duration)
  /-- A caller runs `tryGet` while the clock reads `now`. -/
  | tryGet (now : Time)
  /-- The ticker fires. -/
  | tick
  /-- The channel `p.canceled` is closed. -/
  | cancel
  /-- The goroutine `clean` executes one step of its inner loop. -/
  | clean (now : Time)
deriving DecidableEq, Repr

/-- Effect of one event on the state. -/
def step (e : Event) (s : State) : State :=
  match e with
  | Event.put nc d => put nc d s
  | Event.tryGet now => (tryGet now s).2.2
  | Event.tick => clean Wake.tick s
  | Event.cancel => clean Wake.canceled { s with p := { s.p with canceled := true } }
  | Event.clean now => clean (Wake.run now) s

/-- Effect of a sequence of events, first event first. -/
def run : List Event → State → State
  | [], s => s
  | e :: es, s => run es (step e s)

/-- Runs the inner loop of `clean` for `k` steps; step `i` reads the time
`clock i`. -/
def cleanRun : Nat → (Nat → Time) → State → State
  | 0, _, s => s
  | k + 1, clock, s => cleanRun k (fun i => clock (i + 1)) (clean (Wake.run (clock 0)) s)

/-- One sweep cycle: the ticker wakes `clean`, whose inner loop then runs for
`k` steps. -/
def sweep (k : Nat) (clock : Nat → Time) (s : State) : State :=
  cleanRun k clock (clean Wake.tick s)

/-- The raw connections held in the idle set, oldest first. -/
def idleConns (s : State) : List NetConn := s.p.free.buf.map conn.Conn

/-- The entry is stale at time `t` for the timeout `T`: this is the test
`time.Since(c.lastUsed) > p.idleTimeout` of `clean`. -/
def stale (T : Duration) (t : Time) (c : conn) : Prop := timeSince t c.lastUsed > T

instance (T : Duration) (t : Time) (c : conn) : Decidable (stale T t c) := by
  unfold stale; infer_instance

/-- Releases a list of connections one after the other. -/
def putAll : List (NetConn × Duration) → State → State
  | [], s => s
  | x :: xs, s => putAll xs (put x.1 x.2 s)

/-- A concrete fresh pool: capacity 2, idle timeout 10 ms. -/
def pool2 : State :=
  { p := { free := { buf := [], cap := 2 }
           canceled := false
           cleanTicker := 30000000
           idleTimeout := 10000000 }
    closed := []
    pc := CleanPC.outerSelect }

/-- Invariant of the inner loop of a sweep that started at time `t` on the
idle set `orig`, for the timeout `T`.  The buffer splits into the entries the
loop has not looked at yet (`pending`) and the entries it has sent back
(`recycled`); `m` bounds the number of steps needed to exhaust `pending`. -/
def SweepInv (T : Duration) (t : Time) (orig : List conn) (m : Nat) (s : State) : Prop :=
  s.p.idleTimeout = T ∧
  s.pc ≠ CleanPC.outerSelect ∧
  (s.pc = CleanPC.returned → s.p.free.buf = []) ∧
  (∀ c, s.pc = CleanPC.sending c →
    c ∈ orig ∧ ¬ stale T t c ∧ s.p.free.buf.length < s.p.free.cap) ∧
  s.p.free.buf.length ≤ s.p.free.cap ∧
  ∃ pending recycled, s.p.free.buf = pending ++ recycled ∧
    (∀ c ∈ pending, c ∈ orig) ∧
    (∀ c ∈ recycled, c ∈ orig ∧ ¬ stale T t c) ∧
    (∀ e ∈ orig, stale T t e → e ∈ pending ∨ e.Conn ∈ s.closed) ∧
    (pending = [] ∨
      2 * pending.length + (if s.pc = CleanPC.innerSelect then 0 else 1) ≤ m)

/-- A concrete pool of capacity 2 and timeout 10 whose idle set holds an entry
last used at time 100 and an entry last used at time 195, with the sweeper
waiting for a tick. -/
def poolAged : State :=
  { p := { free := { buf := [{ Conn := 7, lastUsed := 100 }, { Conn := 8, lastUsed := 195 }],
                     cap := 2 }
           canceled := false
           cleanTicker := 30
           idleTimeout := 10 }
    closed := []
    pc := CleanPC.outerSelect }

/-- A clock reading of the present era: about 2025 years after Go's zero
`time.Time`, in nanoseconds. -/
def nowish : Time := 63900000000000000000

/-! ## Ownership of raw connections -/

/-- The raw connection the goroutine `clean` holds between its receive and its
send, if any. -/
def sendingConn : CleanPC → List NetConn
  | CleanPC.sending c => [c.Conn]
  | _ => []

/-- The state together with the callers' side of the ownership contract: the
raw connections callers currently own (`held`) and every raw connection dialed
so far (`dialed`). -/
structure Owned where
  s : State
  held : List NetConn
  dialed : List NetConn
deriving DecidableEq, Repr

/-- What can happen in an execution in which callers follow the ownership
contract. -/
inductive Action where
  /-- A caller dials a new raw connection and owns it. -/
  | dial (nc : NetConn)
  /-- A caller hands a connection to `put`. -/
  | release (nc : NetConn) (idleTimeout : Duration)
  /-- A caller runs `tryGet` and owns what it returns. -/
  | acquire (now : Time)
  /-- The ticker fires. -/
  | tick
  /-- The channel `p.canceled` is closed. -/
  | cancel
  /-- The goroutine `clean` executes one step of its inner loop. -/
  | clean (now : Time)
deriving DecidableEq, Repr

/-- The ownership contract: a dialed connection is new, and a caller releases
only a connection it owns. -/
def Action.legal (a : Action) (o : Owned) : Prop :=
  match a with
  | Action.dial nc => nc ∉ o.dialed
  | Action.release nc _ => nc ∈ o.held
  | _ => True

instance (a : Action) (o : Owned) : Decidable (Action.legal a o) := by
  cases a <;> simp only [Action.legal] <;> infer_instance

/-- The raw connection an action hands to its caller, if any. -/
def acquired (a : Action) (o : Owned) : Option NetConn :=
  match a with
  | Action.acquire now => (tryGet now o.s).1.map conn.Conn
  | _ => none

/-- Effect of an action: the pool code runs, and the callers' bookkeeping
follows the transfer of ownership. -/
def act (a : Action) (o : Owned) : Owned :=
  match a with
  | Action.dial nc => { o with held := nc :: o.held, dialed := nc :: o.dialed }
  | Action.release nc d =>
      { o with s := step (Event.put nc d) o.s, held := o.held.erase nc }
  | Action.acquire now =>
      { o with s := step (Event.tryGet now) o.s
               held := (acquired (Action.acquire now) o).toList ++ o.held }
  | Action.tick => { o with s := step Event.tick o.s }
  | Action.cancel => { o with s := step Event.cancel o.s }
  | Action.clean now => { o with s := step (Event.clean now) o.s }

/-- Effect of a sequence of actions, first action first. -/
def actAll : List Action → Owned → Owned
  | [], o => o
  | a :: as, o => actAll as (act a o)

/-- Every action of the sequence respects the ownership contract in the state
in which it happens. -/
def Legal : List Action → Owned → Prop
  | [], _ => True
  | a :: as, o => a.legal o ∧ Legal as (act a o)

instance Legal.decide : (as : List Action) → (o : Owned) → Decidable (Legal as o)
  | [], _ => isTrue trivial
  | a :: as, o =>
      match (inferInstance : Decidable (a.legal o)), Legal.decide as (act a o) with
      | isTrue h1, isTrue h2 => isTrue ⟨h1, h2⟩
      | isFalse h1, _ => isFalse (fun h => h1 h.1)
      | _, isFalse h2 => isFalse (fun h => h2 h.2)

/-- Number of places that own the raw connection `x`: entries of the idle
set, the sweeper's hand, and the callers. -/
def owners (x : NetConn) (o : Owned) : Nat :=
  List.count x (idleConns o.s) + List.count x (sendingConn o.s.pc) + List.count x o.held

/-- Ownership invariant: every raw connection has at most one owner, and none
if it was never dialed. -/
def OwnInv (o : Owned) : Prop :=
  ∀ x, owners x o ≤ (if x ∈ o.dialed then 1 else 0)

/-- A run of six actions on which the ownership contract holds: connection 7
is dialed, released, acquired, released again and acquired again. -/
def demoActs : List Action :=
  [Action.dial 7, Action.release 7 0, Action.acquire 5, Action.tick,
    Action.release 7 0, Action.acquire 6]

/-- The pool `newConnPool(1, math.MaxInt64)` returns: capacity 1 and the
largest timeout a `time.Duration` can hold. -/
def poolMax : State :=
  { p := { free := { buf := [], cap := 1 }
           canceled := false
           cleanTicker := 9223372036854775805
           idleTimeout := 9223372036854775807 }
    closed := []
    pc := CleanPC.outerSelect }

/-- A state of the inner loop of `clean` from which the loop cannot exit when
no entry can be stale (timeout `maxDuration`): either it is about to receive
from a non-empty buffer, or it is about to send an entry back and the buffer
has room. -/
def SpinInv (s : State) : Prop :=
  s.p.idleTimeout = maxDuration ∧
  s.p.free.buf.length ≤ s.p.free.cap ∧
  ((s.pc = CleanPC.innerSelect ∧ s.p.free.buf ≠ []) ∨
    (∃ c, s.pc = CleanPC.sending c ∧ s.p.free.buf.length < s.p.free.cap))

/-- Every entry the pool or the sweeper holds carries the zero time as its
`lastUsed`. -/
def ZeroStamped (s : State) : Prop :=
  (∀ c ∈ s.p.free.buf, c.lastUsed = zeroTime) ∧
    ∀ c, s.pc = CleanPC.sending c → c.lastUsed = zeroTime

/-- Runs `tryGet` once for each clock reading of the list, in order, and
collects what each call returns. -/
def tryGetAll : List Time → State → List (Option conn × Bool) × State
  | [], s => ([], s)
  | now :: nows, s =>
      (((tryGet now s).1, (tryGet now s).2.1) :: (tryGetAll nows (tryGet now s).2.2).1,
        (tryGetAll nows (tryGet now s).2.2).2)

/-- The state reached from `poolMax` when connection 8 is released, the
sweeper receives it on a tick and judges it fresh, and a caller then releases
connection 9 before the sweeper has sent connection 8 back. -/
def blockedRun : State :=
  run [Event.put 8 0, Event.tick, Event.clean nowish, Event.put 9 0] poolMax

/-- Accounting invariant: every dialed raw connection is in exactly one
place (an entry of the idle set, the sweeper's hand, the callers, or the log of
closed connections) and occurs there once; a connection never dialed is
nowhere. -/
def AccInv (o : Owned) : Prop :=
  ∀ x, owners x o + List.count x o.s.closed = (if x ∈ o.dialed then 1 else 0)

/-- A run of nine actions on which the ownership contract holds: three
connections are dialed and released into a pool of capacity 2, one is acquired
and a sweep starts. -/
def accountActs : List Action :=
  [Action.dial 7, Action.dial 8, Action.dial 9, Action.release 7 0, Action.release 8 0,
    Action.release 9 0, Action.acquire nowish, Action.tick, Action.clean nowish]

/-- A state of the inner loop of `clean` in which the entry `e` is still in
the idle set or in the sweeper's hand, so that the loop cannot exit as long as
`e` is not stale for the timeout `T`. -/
def FreshSpin (T : Duration) (e : conn) (s : State) : Prop :=
  s.p.idleTimeout = T ∧
  s.p.free.buf.length ≤ s.p.free.cap ∧
  ((s.pc = CleanPC.innerSelect ∧ e ∈ s.p.free.buf) ∨
    (∃ c, s.pc = CleanPC.sending c ∧ s.p.free.buf.length < s.p.free.cap ∧
      (c = e ∨ e ∈ s.p.free.buf)))

/-- A run of four actions on which the ownership contract holds: connection
8 is dialed and released, the ticker fires and the sweeper takes one step. -/
def limboActs : List Action :=
  [Action.dial 8, Action.release 8 0, Action.tick, Action.clean nowish]

/-! ## Basic facts about the operations -/

theorem put_cap (nc : NetConn) (d : Duration) (s : State) :
    (put nc d s).p.free.cap = s.p.free.cap := by
  unfold put Chan.trySend
  split_ifs <;> rfl

theorem put_len_le (nc : NetConn) (d : Duration) (s : State)
    (h : s.p.free.buf.length ≤ s.p.free.cap) :
    (put nc d s).p.free.buf.length ≤ s.p.free.cap := by
  unfold put Chan.trySend
  split_ifs with hlt
  · simp only [List.length_append, List.length_singleton]; omega
  · exact h

theorem tryGet_cap (now : Time) (s : State) :
    (tryGet now s).2.2.p.free.cap = s.p.free.cap := by
  unfold tryGet Chan.tryRecv
  cases s.p.free.buf <;> rfl

theorem tryGet_len_le (now : Time) (s : State) :
    (tryGet now s).2.2.p.free.buf.length ≤ s.p.free.buf.length := by
  obtain ⟨⟨⟨buf, cap⟩, cn, tk, it⟩, cl, pc⟩ := s
  cases buf <;> simp [tryGet, Chan.tryRecv]

theorem clean_cap (w : Wake) (s : State) :
    (clean w s).p.free.cap = s.p.free.cap := by
  obtain ⟨⟨⟨buf, cap⟩, cn, tk, it⟩, cl, pc⟩ := s
  cases pc <;> cases w <;> simp only [clean, Chan.tryRecv, Chan.trySend]
  · cases buf with
    | nil => rfl
    | cons c rest => simp only; split_ifs <;> rfl
  · split_ifs <;> rfl

theorem clean_len_le (w : Wake) (s : State)
    (h : s.p.free.buf.length ≤ s.p.free.cap) :
    (clean w s).p.free.buf.length ≤ s.p.free.cap := by
  obtain ⟨⟨⟨buf, cap⟩, cn, tk, it⟩, cl, pc⟩ := s
  simp only at h
  cases pc <;> cases w <;> simp only [clean, Chan.tryRecv, Chan.trySend] <;> try exact h
  · cases buf with
    | nil => exact h
    | cons c rest =>
        simp only [List.length_cons] at h
        simp only; split_ifs <;> simp only <;> omega
  · split_ifs with hlt
    · simp only [List.length_append, List.length_singleton]; omega
    · exact h

theorem step_cap (e : Event) (s : State) :
    (step e s).p.free.cap = s.p.free.cap := by
  cases e with
  | put nc d => exact put_cap nc d s
  | tryGet now => exact tryGet_cap now s
  | tick => exact clean_cap _ s
  | cancel => exact clean_cap _ _
  | clean now => exact clean_cap _ s

theorem step_len_le (e : Event) (s : State)
    (h : s.p.free.buf.length ≤ s.p.free.cap) :
    (step e s).p.free.buf.length ≤ s.p.free.cap := by
  cases e with
  | put nc d => exact put_len_le nc d s h
  | tryGet now => exact le_trans (tryGet_len_le now s) h
  | tick => exact clean_len_le _ s h
  | cancel => exact clean_len_le _ _ h
  | clean now => exact clean_len_le _ s h

theorem run_cap_len (es : List Event) (s : State)
    (h : s.p.free.buf.length ≤ s.p.free.cap) :
    (run es s).p.free.cap = s.p.free.cap ∧
      (run es s).p.free.buf.length ≤ s.p.free.cap := by
  induction es generalizing s with
  | nil => exact ⟨rfl, h⟩
  | cons e es ih =>
      have h1 := step_cap e s
      have h2 := step_len_le e s h
      have := ih (step e s) (by rw [h1]; exact h2)
      simp only [run]
      rw [h1] at this
      exact this

theorem newConnPool_eq_ok (size : Int) (T : Duration) (s0 : State)
    (h : newConnPool size T = Except.ok s0) :
    ¬ (size < 0 ∨ maxAlloc - hchanSize < ptrSize * size) ∧ ¬ wrap64 (T * 3) ≤ 0 ∧
      s0 = { p := { free := { buf := [], cap := size.toNat }
                    canceled := false
                    cleanTicker := wrap64 (T * 3)
                    idleTimeout := T }
             closed := []
             pc := CleanPC.outerSelect } := by
  unfold newConnPool makeChan NewTicker at h
  by_cases h1 : size < 0 ∨ maxAlloc - hchanSize < ptrSize * size
  · rw [if_pos h1] at h
    cases h
  · rw [if_neg h1] at h
    by_cases h2 : wrap64 (T * 3) ≤ 0
    · rw [if_pos h2] at h
      cases h
    · rw [if_neg h2] at h
      simp only [Except.ok.injEq] at h
      exact ⟨h1, h2, h.symm⟩

theorem newConnPool_ok (size : Int) (T : Duration) (s0 : State)
    (h : newConnPool size T = Except.ok s0) :
    0 ≤ size ∧ s0.p.free.buf = [] ∧ s0.p.free.cap = size.toNat ∧
      s0.closed = [] ∧ s0.pc = CleanPC.outerSelect ∧ s0.p.idleTimeout = T := by
  obtain ⟨h1, h2, h3⟩ := newConnPool_eq_ok size T s0 h
  rw [h3]
  exact ⟨by omega, rfl, rfl, rfl, rfl, rfl⟩

/-! ### Sweeps -/

theorem stale_mono (T : Duration) (t now : Time) (c : conn) (h : t ≤ now)
    (hs : stale T t c) : stale T now c := by
  have hle : timeSince t c.lastUsed ≤ timeSince now c.lastUsed := by
    simp only [timeSince, timeSub, maxDuration, minDuration, Time, Duration] at *
    split_ifs <;> omega
  unfold stale at *
  exact lt_of_lt_of_le hs hle

theorem sweepInv_step (T : Duration) (t : Time) (orig : List conn) (m : Nat)
    (s : State) (now : Time) (hnow : t ≤ now) (h : SweepInv T t orig m s) :
    SweepInv T t orig (m - 1) (clean (Wake.run now) s) := by
  obtain ⟨hT, hpc, hret, hsend, hlen, pending, recycled, hbuf, hpend, hrec, hcl, hm⟩ := h
  obtain ⟨⟨⟨buf, cap⟩, cn, tk, it⟩, cl, pc⟩ := s
  simp only at hT hpc hret hsend hlen hbuf hcl hm
  subst hT
  cases pc with
  | outerSelect => exact absurd rfl hpc
  | returned =>
      have hb : buf = [] := hret rfl
      subst hb
      have hp : pending = [] := (List.append_eq_nil.mp hbuf.symm).1
      refine ⟨rfl, hpc, hret, hsend, hlen, pending, recycled, hbuf, hpend, hrec, hcl, Or.inl hp⟩
  | sending c =>
      obtain ⟨hco, hcf, hlt⟩ := hsend c rfl
      simp only [clean, Chan.trySend, if_pos hlt]
      refine ⟨rfl, by simp, by simp, by simp, ?_, pending, recycled ++ [c], ?_, hpend, ?_, hcl, ?_⟩
      · simp only [List.length_append, List.length_singleton]; omega
      · simp only [hbuf, List.append_assoc]
      · intro x hx
        rcases List.mem_append.mp hx with hx | hx
        · exact hrec x hx
        · rw [List.mem_singleton.mp hx]; exact ⟨hco, hcf⟩
      · rcases hm with hm | hm
        · exact Or.inl hm
        · right
          simp only [reduceCtorEq, if_false] at hm
          simp only [if_true]
          omega
  | innerSelect =>
      cases buf with
      | nil =>
          have hp : pending = [] := (List.append_eq_nil.mp hbuf.symm).1
          simp only [clean, Chan.tryRecv]
          exact ⟨rfl, by simp, by simp, by simp, hlen, pending, recycled, hbuf, hpend, hrec,
            hcl, Or.inl hp⟩
      | cons c rest =>
          simp only [List.length_cons] at hlen
          simp only [clean, Chan.tryRecv]
          by_cases hst : timeSince now c.lastUsed > it
          · rw [if_pos hst]
            cases pending with
            | nil =>
                simp only [List.nil_append] at hbuf
                refine ⟨rfl, by simp, by simp, by simp, by simp only; omega, [], rest, rfl,
                  by simp, ?_, ?_, Or.inl rfl⟩
                · intro x hx
                  exact hrec x (by rw [← hbuf]; exact List.mem_cons_of_mem _ hx)
                · intro e he hs
                  rcases hcl e he hs with h1 | h1
                  · simp at h1
                  · exact Or.inr (List.mem_cons_of_mem _ h1)
            | cons q ps =>
                simp only [List.cons_append, List.cons.injEq] at hbuf
                obtain ⟨hcq, hrest⟩ := hbuf
                subst hcq
                refine ⟨rfl, by simp, by simp, by simp, by simp only; omega, ps, recycled,
                  hrest, ?_, hrec, ?_, ?_⟩
                · intro x hx; exact hpend x (List.mem_cons_of_mem _ hx)
                · intro e he hs
                  rcases hcl e he hs with h1 | h1
                  · rcases List.mem_cons.mp h1 with h2 | h2
                    · right; rw [h2]; exact List.mem_cons_self _ _
                    · exact Or.inl h2
                  · exact Or.inr (List.mem_cons_of_mem _ h1)
                · rcases hm with hm | hm
                  · simp at hm
                  · right
                    simp only [if_true, List.length_cons] at hm ⊢
                    omega
          · rw [if_neg hst]
            have hfresh : ¬ stale it t c := fun hs => hst (stale_mono it t now c hnow hs)
            cases pending with
            | nil =>
                simp only [List.nil_append] at hbuf
                refine ⟨rfl, by simp, by simp, ?_, by simp only; omega, [], rest, rfl,
                  by simp, ?_, ?_, Or.inl rfl⟩
                · intro x hx
                  simp only [CleanPC.sending.injEq] at hx
                  subst hx
                  exact ⟨(hrec c (by rw [← hbuf]; exact List.mem_cons_self _ _)).1, hfresh,
                    by simp only; omega⟩
                · intro x hx
                  exact hrec x (by rw [← hbuf]; exact List.mem_cons_of_mem _ hx)
                · intro e he hs
                  rcases hcl e he hs with h1 | h1
                  · simp at h1
                  · exact Or.inr h1
            | cons q ps =>
                simp only [List.cons_append, List.cons.injEq] at hbuf
                obtain ⟨hcq, hrest⟩ := hbuf
                subst hcq
                refine ⟨rfl, by simp, by simp, ?_, by simp only; omega, ps, recycled,
                  hrest, ?_, hrec, ?_, ?_⟩
                · intro x hx
                  simp only [CleanPC.sending.injEq] at hx
                  subst hx
                  exact ⟨hpend c (List.mem_cons_self _ _), hfresh, by simp only; omega⟩
                · intro x hx; exact hpend x (List.mem_cons_of_mem _ hx)
                · intro e he hs
                  rcases hcl e he hs with h1 | h1
                  · rcases List.mem_cons.mp h1 with h2 | h2
                    · exact absurd (h2 ▸ hs) hfresh
                    · exact Or.inl h2
                  · exact Or.inr h1
                · rcases hm with hm | hm
                  · simp at hm
                  · right
                    simp only [if_true, List.length_cons, reduceCtorEq, if_false] at hm ⊢
                    omega

theorem sweepInv_cleanRun (T : Duration) (t : Time) (orig : List conn) (k : Nat) :
    ∀ (m : Nat) (clock : Nat → Time) (s : State), (∀ i, t ≤ clock i) →
      SweepInv T t orig m s → SweepInv T t orig (m - k) (cleanRun k clock s) := by
  induction k with
  | zero => intro m clock s _ h; exact h
  | succ k ih =>
      intro m clock s hclock h
      have h1 := sweepInv_step T t orig m s (clock 0) (hclock 0) h
      have h2 := ih (m - 1) (fun i => clock (i + 1)) _ (fun i => hclock (i + 1)) h1
      have hm : m - 1 - k = m - (k + 1) := by omega
      rw [hm] at h2
      exact h2

theorem sweepInv_tick (s : State) (t : Time) (hpc : s.pc = CleanPC.outerSelect)
    (hcap : s.p.free.buf.length ≤ s.p.free.cap) :
    SweepInv s.p.idleTimeout t s.p.free.buf (2 * s.p.free.buf.length)
      (clean Wake.tick s) := by
  obtain ⟨⟨⟨buf, cap⟩, cn, tk, it⟩, cl, pc⟩ := s
  simp only at hpc hcap
  subst hpc
  simp only [clean]
  exact ⟨rfl, by simp, by simp, by simp, hcap, buf, [], by simp, fun c hc => hc, by simp,
    fun e he _ => Or.inl he, Or.inr (by simp)⟩

/-! ### Ownership -/

theorem poolCount_clean (w : Wake) (s : State) (x : NetConn) :
    List.count x (idleConns (clean w s)) + List.count x (sendingConn (clean w s).pc)
      ≤ List.count x (idleConns s) + List.count x (sendingConn s.pc) := by
  obtain ⟨⟨⟨buf, cap⟩, cn, tk, it⟩, cl, pc⟩ := s
  cases pc <;> cases w <;>
    simp only [clean, Chan.tryRecv, Chan.trySend, idleConns, sendingConn, le_refl]
  · cases buf with
    | nil => simp [sendingConn]
    | cons c rest =>
        simp only
        split_ifs
        · simp only [sendingConn, List.map_cons, List.count_cons, List.count_nil]; omega
        · simp only [sendingConn, List.map_cons, List.count_cons, List.count_nil]; omega
  · split_ifs
    · simp only [sendingConn, List.map_append, List.map_cons, List.map_nil, List.count_append,
        List.count_cons, List.count_nil]
      omega
    · simp [sendingConn]

theorem poolCount_cancel (s : State) (x : NetConn) :
    List.count x (idleConns (step Event.cancel s))
        + List.count x (sendingConn (step Event.cancel s).pc)
      ≤ List.count x (idleConns s) + List.count x (sendingConn s.pc) :=
  poolCount_clean Wake.canceled { s with p := { s.p with canceled := true } } x

theorem idleCount_put (nc : NetConn) (d : Duration) (s : State) (x : NetConn) :
    List.count x (idleConns (put nc d s))
        ≤ List.count x (idleConns s) + (if (nc == x) = true then 1 else 0) ∧
      (put nc d s).pc = s.pc := by
  obtain ⟨⟨⟨buf, cap⟩, cn, tk, it⟩, cl, pc⟩ := s
  simp only [put, Chan.trySend, idleConns]
  by_cases hlt : buf.length < cap
  · simp only [if_pos hlt, List.map_append, List.map_cons, List.map_nil, List.count_append,
      List.count_cons, List.count_nil, and_true, Nat.zero_add, le_refl]
  · simp only [if_neg hlt, and_true]
    omega

theorem ownInv_act (a : Action) (o : Owned) (hl : a.legal o) (h : OwnInv o) :
    OwnInv (act a o) := by
  intro x
  have hx := h x
  cases a with
  | dial nc =>
      simp only [Action.legal] at hl
      simp only [owners, act, List.count_cons, List.mem_cons] at hx ⊢
      by_cases hxn : x = nc
      · subst hxn
        rw [if_neg hl] at hx
        simp only [beq_self_eq_true, if_true, true_or]
        omega
      · have hne : (nc == x) = false := by simpa using fun h => hxn h.symm
        simp only [hne, hxn, false_or]
        simpa using hx
  | release nc d =>
      simp only [Action.legal] at hl
      have hc : 1 ≤ List.count nc o.held := List.one_le_count_iff.mpr hl
      have he := List.count_erase x nc o.held
      obtain ⟨hput, hpc⟩ := idleCount_put nc d o.s x
      simp only [owners, act, step, hpc] at hx ⊢
      by_cases hxn : x = nc
      · subst hxn
        simp only [beq_self_eq_true, if_true] at he hput
        omega
      · have hne : (nc == x) = false := by simpa using fun h => hxn h.symm
        simp only [hne, Bool.false_eq_true, if_false] at he hput
        omega
  | acquire now =>
      obtain ⟨⟨⟨⟨buf, cap⟩, cn, tk, it⟩, cl, pc⟩, held, dialed⟩ := o
      cases buf with
      | nil => simpa [owners, act, acquired, step, tryGet, Chan.tryRecv, idleConns] using hx
      | cons c rest =>
          simp only [owners, act, acquired, step, tryGet, Chan.tryRecv, idleConns,
            List.map_cons, List.count_cons, Option.map_some', Option.toList_some,
            List.singleton_append] at hx ⊢
          omega
  | tick =>
      have := poolCount_clean Wake.tick o.s x
      simp only [owners, act, step] at hx ⊢
      omega
  | cancel =>
      have := poolCount_cancel o.s x
      simp only [owners, act] at hx ⊢
      omega
  | clean now =>
      have := poolCount_clean (Wake.run now) o.s x
      simp only [owners, act, step] at hx ⊢
      omega

theorem ownInv_actAll (as : List Action) (o : Owned) (hl : Legal as o) (h : OwnInv o) :
    OwnInv (actAll as o) := by
  induction as generalizing o with
  | nil => exact h
  | cons a as ih => exact ih (act a o) hl.2 (ownInv_act a o hl.1 h)

theorem legal_append (as bs : List Action) (o : Owned) (hl : Legal (as ++ bs) o) :
    Legal as o ∧ Legal bs (actAll as o) := by
  induction as generalizing o with
  | nil => exact ⟨trivial, hl⟩
  | cons a as ih =>
      obtain ⟨h1, h2⟩ := ih (act a o) hl.2
      exact ⟨⟨hl.1, h1⟩, h2⟩

theorem actAll_append (as bs : List Action) (o : Owned) :
    actAll (as ++ bs) o = actAll bs (actAll as o) := by
  induction as generalizing o with
  | nil => rfl
  | cons a as ih => exact ih (act a o)

theorem held_act (a : Action) (o : Owned) (x : NetConn) (hx : x ∈ o.held)
    (hno : ∀ d, a ≠ Action.release x d) : x ∈ (act a o).held := by
  cases a with
  | dial nc => exact List.mem_cons_of_mem _ hx
  | release nc d =>
      have hne : x ≠ nc := fun h => hno d (by rw [h])
      exact (List.mem_erase_of_ne hne).mpr hx
  | acquire now => exact List.mem_append_right _ hx
  | tick => exact hx
  | cancel => exact hx
  | clean now => exact hx

theorem held_actAll (as : List Action) (o : Owned) (x : NetConn) (hx : x ∈ o.held)
    (hno : ∀ d, Action.release x d ∉ as) : x ∈ (actAll as o).held := by
  induction as generalizing o with
  | nil => exact hx
  | cons a as ih =>
      refine ih (act a o) (held_act a o x hx ?_) ?_
      · intro d hd
        exact hno d (by rw [hd]; exact List.mem_cons_self _ _)
      · intro d hd
        exact hno d (List.mem_cons_of_mem _ hd)

theorem acquired_mem_idle (now : Time) (o : Owned) (x : NetConn)
    (h : acquired (Action.acquire now) o = some x) : x ∈ idleConns o.s := by
  obtain ⟨⟨⟨⟨buf, cap⟩, cn, tk, it⟩, cl, pc⟩, held, dialed⟩ := o
  cases buf with
  | nil => simp [acquired, tryGet, Chan.tryRecv] at h
  | cons c rest =>
      simp only [acquired, tryGet, Chan.tryRecv, Option.map_some', Option.some.injEq] at h
      simp [idleConns, h]

theorem ownInv_idle (o : Owned) (h : OwnInv o) :
    (idleConns o.s).Nodup ∧ ∀ x ∈ idleConns o.s, x ∉ o.held ∧ x ∉ sendingConn o.s.pc := by
  constructor
  · refine List.nodup_iff_count_le_one.mpr (fun x => ?_)
    have hx := h x
    unfold owners at hx
    split_ifs at hx <;> omega
  · intro x hx
    have h1 : 1 ≤ List.count x (idleConns o.s) := List.one_le_count_iff.mpr hx
    have h2 := h x
    unfold owners at h2
    constructor
    · intro hh
      have h3 : 1 ≤ List.count x o.held := List.one_le_count_iff.mpr hh
      split_ifs at h2 <;> omega
    · intro hh
      have h3 : 1 ≤ List.count x (sendingConn o.s.pc) := List.one_le_count_iff.mpr hh
      split_ifs at h2 <;> omega

theorem ownInv_init (s0 : State) (hempty : s0.p.free.buf = [])
    (hpc : sendingConn s0.pc = []) : OwnInv { s := s0, held := [], dialed := [] } := by
  intro x
  simp [owners, idleConns, hempty, hpc]

/-! ### Releasing many connections -/

theorem putAll_spec (xs : List (NetConn × Duration)) (s : State)
    (h : s.p.free.buf.length ≤ s.p.free.cap) :
    (putAll xs s).p.free.buf = s.p.free.buf ++
        (xs.take (s.p.free.cap - s.p.free.buf.length)).map
          (fun x => ({ Conn := x.1, lastUsed := zeroTime } : conn)) ∧
      (putAll xs s).closed =
        ((xs.drop (s.p.free.cap - s.p.free.buf.length)).map Prod.fst).reverse ++ s.closed ∧
      (putAll xs s).p.free.cap = s.p.free.cap ∧
      (putAll xs s).pc = s.pc := by
  induction xs generalizing s with
  | nil => simp [putAll]
  | cons x xs ih =>
      obtain ⟨⟨⟨buf, cap⟩, cn, tk, it⟩, cl, pc⟩ := s
      simp only at h
      by_cases hlt : buf.length < cap
      · have hs : put x.1 x.2 ⟨⟨⟨buf, cap⟩, cn, tk, it⟩, cl, pc⟩
            = ⟨⟨⟨buf ++ [{ Conn := x.1, lastUsed := zeroTime }], cap⟩, cn, tk, it⟩, cl, pc⟩ := by
          simp [put, Chan.trySend, hlt]
        have hn : cap - buf.length = (cap - (buf.length + 1)) + 1 := by omega
        have := ih ⟨⟨⟨buf ++ [{ Conn := x.1, lastUsed := zeroTime }], cap⟩, cn, tk, it⟩, cl, pc⟩
          (by simp only [List.length_append, List.length_singleton]; omega)
        simp only [putAll, hs]
        simp only [List.length_append, List.length_singleton] at this
        rw [hn]
        simp only [List.take_succ_cons, List.drop_succ_cons, List.map_cons]
        simpa using this
      · have hs : put x.1 x.2 ⟨⟨⟨buf, cap⟩, cn, tk, it⟩, cl, pc⟩
            = ⟨⟨⟨buf, cap⟩, cn, tk, it⟩, x.1 :: cl, pc⟩ := by
          simp [put, Chan.trySend, hlt]
        have hn : cap - buf.length = 0 := by omega
        have := ih ⟨⟨⟨buf, cap⟩, cn, tk, it⟩, x.1 :: cl, pc⟩ h
        simp only [putAll, hs]
        simp only [hn] at this ⊢
        simpa using this

/-! ### Zero time stamps -/

theorem zeroStamped_step (e : Event) (s : State) (h : ZeroStamped s) :
    ZeroStamped (step e s) ∧ (step e s).p.idleTimeout = s.p.idleTimeout := by
  obtain ⟨hbuf, hsend⟩ := h
  obtain ⟨⟨⟨buf, cap⟩, cn, tk, it⟩, cl, pc⟩ := s
  simp only at hbuf hsend
  cases e with
  | put nc d =>
      simp only [step, put, Chan.trySend]
      split_ifs
      · refine ⟨⟨fun c hc => ?_, hsend⟩, rfl⟩
        rcases List.mem_append.mp hc with h1 | h1
        · exact hbuf c h1
        · rw [List.mem_singleton.mp h1]
      · exact ⟨⟨hbuf, hsend⟩, rfl⟩
  | tryGet now =>
      cases buf with
      | nil => exact ⟨⟨hbuf, hsend⟩, rfl⟩
      | cons c rest =>
          exact ⟨⟨fun x hx => hbuf x (List.mem_cons_of_mem _ hx), hsend⟩, rfl⟩
  | tick =>
      cases pc with
      | outerSelect => exact ⟨⟨hbuf, fun c hc => by cases hc⟩, rfl⟩
      | innerSelect => exact ⟨⟨hbuf, hsend⟩, rfl⟩
      | sending c => exact ⟨⟨hbuf, hsend⟩, rfl⟩
      | returned => exact ⟨⟨hbuf, hsend⟩, rfl⟩
  | cancel =>
      cases pc with
      | outerSelect => exact ⟨⟨hbuf, fun c hc => by cases hc⟩, rfl⟩
      | innerSelect => exact ⟨⟨hbuf, hsend⟩, rfl⟩
      | sending c => exact ⟨⟨hbuf, hsend⟩, rfl⟩
      | returned => exact ⟨⟨hbuf, hsend⟩, rfl⟩
  | clean now =>
      cases pc with
      | outerSelect => exact ⟨⟨hbuf, hsend⟩, rfl⟩
      | returned => exact ⟨⟨hbuf, hsend⟩, rfl⟩
      | innerSelect =>
          cases buf with
          | nil => exact ⟨⟨hbuf, fun c hc => by cases hc⟩, rfl⟩
          | cons c rest =>
              simp only [step, clean, Chan.tryRecv]
              split_ifs
              · exact ⟨⟨fun x hx => hbuf x (List.mem_cons_of_mem _ hx),
                  fun c hc => by cases hc⟩, rfl⟩
              · refine ⟨⟨fun x hx => hbuf x (List.mem_cons_of_mem _ hx), fun x hx => ?_⟩, rfl⟩
                simp only [CleanPC.sending.injEq] at hx
                rw [← hx]
                exact hbuf c (List.mem_cons_self _ _)
      | sending c =>
          simp only [step, clean, Chan.trySend]
          split_ifs
          · refine ⟨⟨fun x hx => ?_, fun c hc => by cases hc⟩, rfl⟩
            rcases List.mem_append.mp hx with h1 | h1
            · exact hbuf x h1
            · rw [List.mem_singleton.mp h1]; exact hsend c rfl
          · exact ⟨⟨hbuf, hsend⟩, rfl⟩

theorem zeroStamped_run (es : List Event) (s : State) (h : ZeroStamped s) :
    ZeroStamped (run es s) ∧ (run es s).p.idleTimeout = s.p.idleTimeout := by
  induction es generalizing s with
  | nil => exact ⟨h, rfl⟩
  | cons e es ih =>
      obtain ⟨h1, h2⟩ := zeroStamped_step e s h
      obtain ⟨h3, h4⟩ := ih (step e s) h1
      exact ⟨h3, h4.trans h2⟩

theorem cleanRun_returned (k : Nat) :
    ∀ (clock : Nat → Time) (s : State), s.pc = CleanPC.returned → cleanRun k clock s = s := by
  induction k with
  | zero => intro clock s _; rfl
  | succ k ih =>
      intro clock s h
      have hs : clean (Wake.run (clock 0)) s = s := by
        obtain ⟨p, cl, pc⟩ := s
        simp only at h
        subst h
        rfl
      simp only [cleanRun, hs]
      exact ih _ s h

theorem cleanRun_all_stale (buf : List conn) :
    ∀ (k : Nat) (clock : Nat → Time) (s : State), s.pc = CleanPC.innerSelect →
      s.p.free.buf = buf →
      (∀ c ∈ buf, ∀ i, timeSince (clock i) c.lastUsed > s.p.idleTimeout) →
      buf.length + 1 ≤ k →
      (cleanRun k clock s).p.free.buf = [] ∧
        (cleanRun k clock s).pc = CleanPC.returned ∧
        (cleanRun k clock s).closed = (buf.map conn.Conn).reverse ++ s.closed := by
  induction buf with
  | nil =>
      intro k clock s hpc hbuf _ hk
      obtain ⟨k, rfl⟩ : ∃ j, k = j + 1 := ⟨k - 1, by simp only [List.length_nil] at hk; omega⟩
      obtain ⟨⟨⟨b, cap⟩, cn, tk, it⟩, cl, pc⟩ := s
      simp only at hpc hbuf
      subst hpc
      subst hbuf
      simp only [cleanRun, clean, Chan.tryRecv]
      rw [cleanRun_returned k _ _ rfl]
      exact ⟨rfl, rfl, rfl⟩
  | cons c rest ih =>
      intro k clock s hpc hbuf hst hk
      obtain ⟨k, rfl⟩ : ∃ j, k = j + 1 := ⟨k - 1, by simp only [List.length_cons] at hk; omega⟩
      obtain ⟨⟨⟨b, cap⟩, cn, tk, it⟩, cl, pc⟩ := s
      simp only at hpc hbuf hst
      subst hpc
      subst hbuf
      have h0 : timeSince (clock 0) c.lastUsed > it := hst c (List.mem_cons_self _ _) 0
      simp only [cleanRun, clean, Chan.tryRecv, if_pos h0]
      have := ih k (fun i => clock (i + 1))
        ⟨⟨⟨rest, cap⟩, cn, tk, it⟩, c.Conn :: cl, CleanPC.innerSelect⟩ rfl rfl
        (fun x hx i => hst x (List.mem_cons_of_mem _ hx) (i + 1))
        (by simp only [List.length_cons] at hk; omega)
      obtain ⟨h1, h2, h3⟩ := this
      refine ⟨h1, h2, ?_⟩
      rw [h3]
      simp

theorem timeSince_zero_gt (T : Duration) (now : Time) (hT : T < maxDuration) (hnow : T < now) :
    timeSince now zeroTime > T := by
  simp only [timeSince, timeSub, maxDuration, minDuration, zeroTime, Time, Duration] at *
  split_ifs <;> omega

/-! ### First in, first out -/

theorem tryGetAll_spec (nows : List Time) :
    ∀ (s : State), nows.length ≤ s.p.free.buf.length →
      (tryGetAll nows s).1
          = List.zipWith (fun (c : conn) (now : Time) => (some { c with lastUsed := now }, true))
              s.p.free.buf nows ∧
        (tryGetAll nows s).2.p.free.buf = s.p.free.buf.drop nows.length ∧
        (tryGetAll nows s).2.closed = s.closed := by
  induction nows with
  | nil => intro s _; simp [tryGetAll]
  | cons now nows ih =>
      intro s hlen
      obtain ⟨⟨⟨buf, cap⟩, cn, tk, it⟩, cl, pc⟩ := s
      cases buf with
      | nil => simp at hlen
      | cons c rest =>
          simp only [List.length_cons] at hlen
          have := ih ⟨⟨⟨rest, cap⟩, cn, tk, it⟩, cl, pc⟩ (by simp only; omega)
          obtain ⟨h1, h2, h3⟩ := this
          simp only [tryGetAll, tryGet, Chan.tryRecv, List.zipWith_cons_cons, List.length_cons,
            List.drop_succ_cons]
          exact ⟨by rw [h1], h2, h3⟩

/-! ### Accounting -/

theorem accCount_clean (w : Wake) (s : State) (x : NetConn) :
    List.count x (idleConns (clean w s)) + List.count x (sendingConn (clean w s).pc)
        + List.count x (clean w s).closed
      = List.count x (idleConns s) + List.count x (sendingConn s.pc)
        + List.count x s.closed := by
  obtain ⟨⟨⟨buf, cap⟩, cn, tk, it⟩, cl, pc⟩ := s
  cases pc <;> cases w <;>
    simp only [clean, Chan.tryRecv, Chan.trySend, idleConns, sendingConn]
  · cases buf with
    | nil => simp [sendingConn]
    | cons c rest =>
        simp only
        split_ifs
        · simp only [sendingConn, List.map_cons, List.count_cons, List.count_nil]; omega
        · simp only [sendingConn, List.map_cons, List.count_cons, List.count_nil]; omega
  · split_ifs
    · simp only [sendingConn, List.map_append, List.map_cons, List.map_nil, List.count_append,
        List.count_cons, List.count_nil]
      omega
    · simp [sendingConn]

theorem accCount_cancel (s : State) (x : NetConn) :
    List.count x (idleConns (step Event.cancel s))
        + List.count x (sendingConn (step Event.cancel s).pc)
        + List.count x (step Event.cancel s).closed
      = List.count x (idleConns s) + List.count x (sendingConn s.pc)
        + List.count x s.closed :=
  accCount_clean Wake.canceled { s with p := { s.p with canceled := true } } x

theorem accCount_put (nc : NetConn) (d : Duration) (s : State) (x : NetConn) :
    List.count x (idleConns (put nc d s)) + List.count x (put nc d s).closed
        = List.count x (idleConns s) + List.count x s.closed + List.count x [nc] ∧
      (put nc d s).pc = s.pc := by
  obtain ⟨⟨⟨buf, cap⟩, cn, tk, it⟩, cl, pc⟩ := s
  simp only [put, Chan.trySend, idleConns]
  by_cases hlt : buf.length < cap
  · simp only [if_pos hlt, List.map_append, List.map_cons, List.map_nil, List.count_append,
      and_true]
    omega
  · simp only [if_neg hlt, List.count_cons, List.count_nil, and_true]
    omega

theorem accInv_act (a : Action) (o : Owned) (hl : a.legal o) (h : AccInv o) :
    AccInv (act a o) := by
  intro x
  have hx := h x
  cases a with
  | dial nc =>
      simp only [Action.legal] at hl
      simp only [owners, act, List.count_cons, List.mem_cons] at hx ⊢
      by_cases hxn : x = nc
      · subst hxn
        rw [if_neg hl] at hx
        simp only [beq_self_eq_true, if_true, true_or]
        omega
      · have hne : (nc == x) = false := by simpa using fun h => hxn h.symm
        simp only [hne, hxn, false_or]
        simpa using hx
  | release nc d =>
      simp only [Action.legal] at hl
      have hc : 1 ≤ List.count nc o.held := List.one_le_count_iff.mpr hl
      have he := List.count_erase x nc o.held
      obtain ⟨hput, hpc⟩ := accCount_put nc d o.s x
      simp only [owners, act, step, hpc] at hx ⊢
      by_cases hxn : x = nc
      · subst hxn
        simp only [beq_self_eq_true, if_true, List.count_cons, List.count_nil] at he hput
        omega
      · have hne : (nc == x) = false := by simpa using fun h => hxn h.symm
        simp only [hne, Bool.false_eq_true, if_false, List.count_cons, List.count_nil] at he hput
        omega
  | acquire now =>
      obtain ⟨⟨⟨⟨buf, cap⟩, cn, tk, it⟩, cl, pc⟩, held, dialed⟩ := o
      cases buf with
      | nil => simpa [owners, act, acquired, step, tryGet, Chan.tryRecv, idleConns] using hx
      | cons c rest =>
          simp only [owners, act, acquired, step, tryGet, Chan.tryRecv, idleConns,
            List.map_cons, List.count_cons, Option.map_some', Option.toList_some,
            List.singleton_append] at hx ⊢
          omega
  | tick =>
      have := accCount_clean Wake.tick o.s x
      simp only [owners, act, step] at hx ⊢
      omega
  | cancel =>
      have := accCount_cancel o.s x
      simp only [owners, act] at hx ⊢
      omega
  | clean now =>
      have := accCount_clean (Wake.run now) o.s x
      simp only [owners, act, step] at hx ⊢
      omega

theorem accInv_actAll (as : List Action) (o : Owned) (hl : Legal as o) (h : AccInv o) :
    AccInv (actAll as o) := by
  induction as generalizing o with
  | nil => exact h
  | cons a as ih => exact ih (act a o) hl.2 (accInv_act a o hl.1 h)

theorem accInv_init (s0 : State) (hempty : s0.p.free.buf = [])
    (hpc : sendingConn s0.pc = []) (hcl : s0.closed = []) :
    AccInv { s := s0, held := [], dialed := [] } := by
  intro x
  simp [owners, idleConns, hempty, hpc, hcl]

theorem dialed_act (a : Action) (o : Owned) (x : NetConn) (hx : x ∈ o.dialed) :
    x ∈ (act a o).dialed := by
  cases a with
  | dial nc => exact List.mem_cons_of_mem _ hx
  | release nc d => exact hx
  | acquire now => exact hx
  | tick => exact hx
  | cancel => exact hx
  | clean now => exact hx

theorem dialed_actAll (as : List Action) (o : Owned) (x : NetConn) (hx : x ∈ o.dialed) :
    x ∈ (actAll as o).dialed := by
  induction as generalizing o with
  | nil => exact hx
  | cons a as ih => exact ih (act a o) (dialed_act a o x hx)

theorem released_dialed (as : List Action) (o : Owned) (hl : Legal as o) (h : AccInv o)
    (x : NetConn) (d : Duration) (hx : Action.release x d ∈ as) :
    x ∈ (actAll as o).dialed := by
  induction as generalizing o with
  | nil => cases hx
  | cons a as ih =>
      rcases List.mem_cons.mp hx with h1 | h1
      · subst h1
        have hheld : x ∈ o.held := hl.1
        have hc : 1 ≤ List.count x o.held := List.one_le_count_iff.mpr hheld
        have hx' := h x
        have hd : x ∈ o.dialed := by
          by_contra hnd
          rw [if_neg hnd] at hx'
          unfold owners at hx'
          omega
        exact dialed_actAll as _ x (dialed_act _ o x hd)
      · exact ih (act a o) hl.2 (accInv_act a o hl.1 h) h1

/-! ## The claims -/

/-- C1. Capacity invariant: starting from a pool freshly returned by
`newConnPool size T`, after every finite sequence of events (calls of `put`,
calls of `tryGet`, ticks, cancellation and steps of the sweeper, in any
interleaving, hence in particular after whole sweeps) the number of idle
connections is at most `size`. -/
theorem idle_count_le_capacity (size : Int) (T : Duration) (s0 : State)
    (h : newConnPool size T = Except.ok s0) (es : List Event) :
    ((run es s0).p.free.buf.length : Int) ≤ size := by
  obtain ⟨hsz, hbuf, hcap, -, -, -⟩ := newConnPool_ok size T s0 h
  have := (run_cap_len es s0 (by rw [hbuf]; simp)).2
  rw [hcap] at this
  omega

theorem idle_count_le_capacity_witness :
    newConnPool 2 10000000 = Except.ok pool2 ∧
      ((run [Event.put 7 0, Event.put 8 0, Event.put 9 0, Event.tryGet 5,
              Event.tick, Event.clean 6] pool2).p.free.buf.length : Int) ≤ 2 :=
  ⟨rfl, idle_count_le_capacity 2 10000000 pool2 rfl _⟩

/-- C2. When the idle set already holds as many entries as the channel's
capacity, `put Z` closes `Z` at once (one `Close` call on `Z` is logged) and
changes nothing else: the idle set keeps the same entries in the same order. -/
theorem put_full_closes (s : State) (Z : NetConn) (d : Duration)
    (hfull : s.p.free.buf.length = s.p.free.cap) :
    put Z d s = { s with closed := Z :: s.closed } := by
  simp [put, Chan.trySend, hfull]

theorem put_full_closes_witness :
    (put 7 0 (put 8 0 pool2)).p.free.buf.length = (put 7 0 (put 8 0 pool2)).p.free.cap ∧
      put 9 0 (put 7 0 (put 8 0 pool2)) =
        { put 7 0 (put 8 0 pool2) with closed := 9 :: (put 7 0 (put 8 0 pool2)).closed } :=
  ⟨by decide, put_full_closes _ 9 0 (by decide)⟩

/-- C3. On a non-empty idle set `tryGet` reports `found = true` and returns an
entry `c` of the idle set (stamped with the current time); afterwards the idle
set is the previous one with that single entry removed, the capacity is the
same and nothing has been closed. -/
theorem tryGet_nonempty (now : Time) (s : State) (h : s.p.free.buf ≠ []) :
    ∃ c, c ∈ s.p.free.buf ∧
      (tryGet now s).1 = some { c with lastUsed := now } ∧
      (tryGet now s).2.1 = true ∧
      (tryGet now s).2.2.p.free.buf = s.p.free.buf.erase c ∧
      s.p.free.buf = c :: (tryGet now s).2.2.p.free.buf ∧
      (tryGet now s).2.2.p.free.cap = s.p.free.cap ∧
      (tryGet now s).2.2.closed = s.closed ∧
      (tryGet now s).2.2.pc = s.pc := by
  unfold tryGet Chan.tryRecv
  cases hb : s.p.free.buf with
  | nil => exact absurd hb h
  | cons c rest =>
      exact ⟨c, by simp, rfl, rfl, by simp, rfl, rfl, rfl, rfl⟩

theorem tryGet_nonempty_witness :
    (put 7 0 (put 8 0 pool2)).p.free.buf ≠ [] ∧
      ∃ c, c ∈ (put 7 0 (put 8 0 pool2)).p.free.buf ∧
        (tryGet 5 (put 7 0 (put 8 0 pool2))).1 = some { c with lastUsed := 5 } ∧
        (tryGet 5 (put 7 0 (put 8 0 pool2))).2.1 = true ∧
        (tryGet 5 (put 7 0 (put 8 0 pool2))).2.2.p.free.buf
          = (put 7 0 (put 8 0 pool2)).p.free.buf.erase c ∧
        (put 7 0 (put 8 0 pool2)).p.free.buf
          = c :: (tryGet 5 (put 7 0 (put 8 0 pool2))).2.2.p.free.buf ∧
        (tryGet 5 (put 7 0 (put 8 0 pool2))).2.2.p.free.cap
          = (put 7 0 (put 8 0 pool2)).p.free.cap ∧
        (tryGet 5 (put 7 0 (put 8 0 pool2))).2.2.closed = (put 7 0 (put 8 0 pool2)).closed ∧
        (tryGet 5 (put 7 0 (put 8 0 pool2))).2.2.pc = (put 7 0 (put 8 0 pool2)).pc :=
  ⟨by decide, tryGet_nonempty 5 _ (by decide)⟩

/-- C4. The call `tryGet` reports `found = false` exactly when the idle set is
empty, and the idle set is empty exactly when the call returns no connection,
`found = false` and the state it was given, unchanged (so nothing is
closed). -/
theorem tryGet_false_iff_empty (now : Time) (s : State) :
    ((tryGet now s).2.1 = false ↔ s.p.free.buf = []) ∧
      (s.p.free.buf = [] ↔ tryGet now s = (none, false, s)) := by
  unfold tryGet Chan.tryRecv
  cases hb : s.p.free.buf with
  | nil => simp
  | cons c rest => simp

/-- C5. Round trip: on an empty pool of capacity at least 1, `put X` followed
by `tryGet` returns `found = true` and a `conn` wrapping exactly `X`; the state
is then again the initial one (in particular `X` was not closed), and one more
`tryGet` returns `found = false` and no connection. -/
theorem put_tryGet_roundtrip (s : State) (X : NetConn) (d : Duration) (now now2 : Time)
    (hempty : s.p.free.buf = []) (hcap : 1 ≤ s.p.free.cap) :
    (tryGet now (put X d s)).1 = some { Conn := X, lastUsed := now } ∧
      (tryGet now (put X d s)).2.1 = true ∧
      (tryGet now (put X d s)).2.2 = s ∧
      (tryGet now (put X d s)).2.2.closed = s.closed ∧
      tryGet now2 (tryGet now (put X d s)).2.2 = (none, false, s) := by
  obtain ⟨⟨⟨buf, cap⟩, cn, tk, it⟩, cl, pc⟩ := s
  simp only at hempty hcap
  subst hempty
  have hlt : 0 < cap := hcap
  simp [tryGet, put, Chan.trySend, Chan.tryRecv, hlt]

theorem put_tryGet_roundtrip_witness :
    pool2.p.free.buf = [] ∧ 1 ≤ pool2.p.free.cap ∧
      (tryGet 5 (put 7 0 pool2)).1 = some { Conn := 7, lastUsed := 5 } ∧
      (tryGet 5 (put 7 0 pool2)).2.1 = true ∧
      (tryGet 5 (put 7 0 pool2)).2.2 = pool2 ∧
      (tryGet 5 (put 7 0 pool2)).2.2.closed = pool2.closed ∧
      tryGet 6 (tryGet 5 (put 7 0 pool2)).2.2 = (none, false, pool2) :=
  ⟨by decide, by decide, put_tryGet_roundtrip pool2 7 0 5 6 (by decide) (by decide)⟩

/-- C6. A sweep started at time `t` (every clock reading made during it is at
least `t`) on a pool whose sweeper waits for a tick: once the inner loop has
run for at least twice as many steps as there were idle entries, and at every
later point, each entry `e` that was stale at `t` has been closed, is absent
from the idle set and is not being sent back; any connection a later `tryGet`
returns is an entry of the original idle set that was not stale at `t`. -/
theorem sweep_closes_stale (s : State) (t : Time) (clock : Nat → Time) (k : Nat)
    (hpc : s.pc = CleanPC.outerSelect)
    (hcap : s.p.free.buf.length ≤ s.p.free.cap)
    (hclock : ∀ i, t ≤ clock i)
    (hk : 2 * s.p.free.buf.length ≤ k)
    (e : conn) (he : e ∈ s.p.free.buf) (hst : stale s.p.idleTimeout t e) :
    e.Conn ∈ (sweep k clock s).closed ∧
      e ∉ (sweep k clock s).p.free.buf ∧
      (sweep k clock s).pc ≠ CleanPC.sending e ∧
      ∀ now c, (tryGet now (sweep k clock s)).1 = some c →
        ∃ c0 ∈ s.p.free.buf, ¬ stale s.p.idleTimeout t c0 ∧ c = { c0 with lastUsed := now } := by
  have h0 := sweepInv_cleanRun s.p.idleTimeout t s.p.free.buf k _ clock _ hclock
    (sweepInv_tick s t hpc hcap)
  have hz : 2 * s.p.free.buf.length - k = 0 := by omega
  rw [hz] at h0
  change SweepInv s.p.idleTimeout t s.p.free.buf 0 (sweep k clock s) at h0
  generalize sweep k clock s = s' at h0
  obtain ⟨-, -, -, hsend, -, pending, recycled, hbuf, -, hrec, hcl, hm⟩ := h0
  have hp : pending = [] := by
    rcases hm with hm | hm
    · exact hm
    · have : pending.length = 0 := by omega
      exact List.length_eq_zero.mp this
  subst hp
  simp only [List.nil_append] at hbuf
  rw [← hbuf] at hrec
  refine ⟨?_, ?_, ?_, ?_⟩
  · rcases hcl e he hst with h1 | h1
    · simp at h1
    · exact h1
  · intro hmem
    exact (hrec e hmem).2 hst
  · intro hpc'
    exact (hsend e hpc').2.1 hst
  · intro now c hc
    obtain ⟨⟨⟨buf, cap⟩, cn, tk, it⟩, cl, pc⟩ := s'
    cases buf with
    | nil => simp [tryGet, Chan.tryRecv] at hc
    | cons c0 rest =>
        simp only [tryGet, Chan.tryRecv, Option.some.injEq] at hc
        exact ⟨c0, (hrec c0 (List.mem_cons_self _ _)).1, (hrec c0 (List.mem_cons_self _ _)).2,
          hc.symm⟩

theorem sweep_closes_stale_witness :
    poolAged.pc = CleanPC.outerSelect ∧
      poolAged.p.free.buf.length ≤ poolAged.p.free.cap ∧
      ({ Conn := 7, lastUsed := 100 } : conn) ∈ poolAged.p.free.buf ∧
      stale poolAged.p.idleTimeout 200 { Conn := 7, lastUsed := 100 } ∧
      (7 ∈ (sweep 4 (fun _ => 200) poolAged).closed ∧
        ({ Conn := 7, lastUsed := 100 } : conn) ∉ (sweep 4 (fun _ => 200) poolAged).p.free.buf ∧
        (sweep 4 (fun _ => 200) poolAged).pc ≠ CleanPC.sending { Conn := 7, lastUsed := 100 } ∧
        ∀ now c, (tryGet now (sweep 4 (fun _ => 200) poolAged)).1 = some c →
          ∃ c0 ∈ poolAged.p.free.buf,
            ¬ stale poolAged.p.idleTimeout 200 c0 ∧ c = { c0 with lastUsed := now }) :=
  ⟨by decide, by decide, by decide, by decide,
    sweep_closes_stale poolAged 200 (fun _ => 200) 4 (by decide) (by decide)
      (fun _ => le_refl _) (by decide) { Conn := 7, lastUsed := 100 } (by decide) (by decide)⟩

/-- C7, evaluated on the code.  A pool of capacity 2 and timeout 10 ms is
created, connection 7 is released, and a sweep runs while the clock still reads
the time of the release (`nowish`), so that the connection has been idle for
no time at all: `put` stored the zero time as `lastUsed`, the sweep finds
`time.Since` of it above the timeout, closes connection 7 and leaves the idle
set empty. -/
theorem put_then_sweep_closes_fresh :
    newConnPool 2 10000000 = Except.ok pool2 ∧
      (put 7 10000000 pool2).p.free.buf = [{ Conn := 7, lastUsed := zeroTime }] ∧
      (put 7 10000000 pool2).closed = [] ∧
      timeSince nowish zeroTime = maxDuration ∧
      (sweep 1 (fun _ => nowish) (put 7 10000000 pool2)).closed = [7] ∧
      (sweep 1 (fun _ => nowish) (put 7 10000000 pool2)).p.free.buf = [] ∧
      (tryGet nowish (sweep 1 (fun _ => nowish) (put 7 10000000 pool2))).2.1 = false := by
  refine ⟨rfl, ?_, ?_, ?_, ?_, ?_, ?_⟩ <;> decide

theorem returned_step (e : Event) (s : State) (h : s.pc = CleanPC.returned) :
    (step e s).pc = CleanPC.returned := by
  obtain ⟨⟨⟨buf, cap⟩, cn, tk, it⟩, cl, pc⟩ := s
  simp only at h
  subst h
  cases e with
  | put nc d => simp only [step, put, Chan.trySend]; split_ifs <;> rfl
  | tryGet now => cases buf <;> rfl
  | tick => rfl
  | cancel => rfl
  | clean now => rfl

theorem returned_run (es : List Event) (s : State) (h : s.pc = CleanPC.returned) :
    (run es s).pc = CleanPC.returned := by
  induction es generalizing s with
  | nil => exact h
  | cons e es ih => exact ih (step e s) (returned_step e s h)

theorem returned_tick (s : State) (h : s.pc = CleanPC.returned) :
    step Event.tick s = s := by
  obtain ⟨p, cl, pc⟩ := s
  simp only at h
  subst h
  rfl

/-- C8, evaluated on the code.  On a fresh pool of capacity 2 the first tick
starts a sweep whose first step finds the idle set empty and takes the
`default` case, which returns from `clean` (line 53).  No cancellation has
occurred, yet whatever events follow, the sweeper stays returned and a further
tick changes nothing: no second sweep is ever performed. -/
theorem clean_returns_after_first_sweep (now : Time) (es : List Event) :
    (run [Event.tick, Event.clean now] pool2).pc = CleanPC.returned ∧
      (run (Event.tick :: Event.clean now :: es) pool2).pc = CleanPC.returned ∧
      step Event.tick (run (Event.tick :: Event.clean now :: es) pool2)
        = run (Event.tick :: Event.clean now :: es) pool2 := by
  have h1 : (run [Event.tick, Event.clean now] pool2).pc = CleanPC.returned := rfl
  have h2 : (run (Event.tick :: Event.clean now :: es) pool2).pc = CleanPC.returned :=
    returned_run es _ rfl
  exact ⟨h1, h2, returned_tick _ h2⟩

/-- C9. No double hand-out.  Start from a pool whose idle set is empty while
the sweeper holds no entry, and let callers follow the ownership contract
(they release only connections they own: dialed by them, or acquired and not
released since), with ticks, cancellation and sweeper steps interleaved at
will.  Then in the state reached the idle set holds no raw connection twice and
none that a caller owns; and whenever two `tryGet` calls of the run return the
same raw connection `x`, a `put` of `x` lies between them. -/
theorem no_double_handout (s0 : State) (hempty : s0.p.free.buf = [])
    (hpc : sendingConn s0.pc = []) (as : List Action)
    (hl : Legal as { s := s0, held := [], dialed := [] }) :
    ((idleConns (actAll as { s := s0, held := [], dialed := [] }).s).Nodup ∧
      ∀ x ∈ idleConns (actAll as { s := s0, held := [], dialed := [] }).s,
        x ∉ (actAll as { s := s0, held := [], dialed := [] }).held) ∧
    ∀ pre mid post now1 now2 x,
      as = pre ++ Action.acquire now1 :: (mid ++ Action.acquire now2 :: post) →
      acquired (Action.acquire now1) (actAll pre { s := s0, held := [], dialed := [] })
        = some x →
      acquired (Action.acquire now2)
        (actAll (pre ++ Action.acquire now1 :: mid) { s := s0, held := [], dialed := [] })
        = some x →
      ∃ d, Action.release x d ∈ mid := by
  have hinit := ownInv_init s0 hempty hpc
  constructor
  · have hI := ownInv_idle _ (ownInv_actAll as _ hl hinit)
    exact ⟨hI.1, fun x hx => (hI.2 x hx).1⟩
  · intro pre mid post now1 now2 x has h1 h2
    by_contra hno
    have hno' : ∀ d, Action.release x d ∉ mid := fun d hd => hno ⟨d, hd⟩
    have hsplit : as = (pre ++ Action.acquire now1 :: mid) ++ Action.acquire now2 :: post := by
      rw [has]; simp
    rw [hsplit] at hl
    have hl3 := (legal_append _ _ _ hl).1
    have hinv3 := ownInv_actAll _ _ hl3 hinit
    have hidle := acquired_mem_idle now2 _ x h2
    have hnot := ((ownInv_idle _ hinv3).2 x hidle).1
    apply hnot
    have hrun : actAll (pre ++ Action.acquire now1 :: mid) { s := s0, held := [], dialed := [] }
        = actAll mid (act (Action.acquire now1)
            (actAll pre { s := s0, held := [], dialed := [] })) := by
      rw [actAll_append]; rfl
    rw [hrun]
    refine held_actAll mid _ x ?_ hno'
    simp only [act, h1, Option.toList_some, List.singleton_append]
    exact List.mem_cons_self _ _

theorem no_double_handout_witness :
    pool2.p.free.buf = [] ∧ sendingConn pool2.pc = [] ∧
      Legal demoActs { s := pool2, held := [], dialed := [] } ∧
      (((idleConns (actAll demoActs { s := pool2, held := [], dialed := [] }).s).Nodup ∧
        ∀ x ∈ idleConns (actAll demoActs { s := pool2, held := [], dialed := [] }).s,
          x ∉ (actAll demoActs { s := pool2, held := [], dialed := [] }).held) ∧
      ∀ pre mid post now1 now2 x,
        demoActs = pre ++ Action.acquire now1 :: (mid ++ Action.acquire now2 :: post) →
        acquired (Action.acquire now1) (actAll pre { s := pool2, held := [], dialed := [] })
          = some x →
        acquired (Action.acquire now2)
          (actAll (pre ++ Action.acquire now1 :: mid) { s := pool2, held := [], dialed := [] })
          = some x →
        ∃ d, Action.release x d ∈ mid) :=
  ⟨by decide, by decide, by decide,
    no_double_handout pool2 (by decide) (by decide) demoActs (by decide)⟩

/-- C10. Releasing `N` distinct connections, one `put` after the other, into
an empty pool of capacity `C < N`: the idle set ends with exactly the first `C`
of them (so its size is `C`), exactly the other `N - C` are closed (the log of
`Close` calls grows by them, no two alike), and every released connection is
either idle or closed by these calls, never both. -/
theorem putAll_overflow (s : State) (xs : List (NetConn × Duration))
    (hempty : s.p.free.buf = []) (hnd : (xs.map Prod.fst).Nodup)
    (hN : s.p.free.cap < xs.length) :
    (putAll xs s).p.free.buf.length = s.p.free.cap ∧
      idleConns (putAll xs s) = (xs.take s.p.free.cap).map Prod.fst ∧
      ∃ dropped, (putAll xs s).closed = dropped ++ s.closed ∧
        dropped.length = xs.length - s.p.free.cap ∧
        dropped.Nodup ∧
        ∀ x ∈ xs.map Prod.fst,
          (x ∈ idleConns (putAll xs s) ∧ x ∉ dropped) ∨
            (x ∉ idleConns (putAll xs s) ∧ x ∈ dropped) := by
  obtain ⟨hbuf, hcl, -, -⟩ := putAll_spec xs s (by rw [hempty]; simp)
  rw [hempty] at hbuf hcl
  simp only [List.length_nil, Nat.sub_zero, List.nil_append] at hbuf hcl
  have hidle : idleConns (putAll xs s) = (xs.take s.p.free.cap).map Prod.fst := by
    simp [idleConns, hbuf, Function.comp_def]
  have hdecomp : xs.map Prod.fst
      = (xs.take s.p.free.cap).map Prod.fst ++ (xs.drop s.p.free.cap).map Prod.fst := by
    rw [← List.map_append, List.take_append_drop]
  rw [hdecomp] at hnd
  obtain ⟨-, hndD, hdisj⟩ := List.nodup_append.mp hnd
  refine ⟨?_, hidle, ((xs.drop s.p.free.cap).map Prod.fst).reverse, hcl, ?_, ?_, ?_⟩
  · rw [hbuf, List.length_map, List.length_take]; omega
  · simp
  · exact List.nodup_reverse.mpr hndD
  · intro x hx
    rw [hdecomp] at hx
    rw [hidle]
    rcases List.mem_append.mp hx with h1 | h1
    · left
      exact ⟨h1, fun h2 => hdisj h1 (List.mem_reverse.mp h2)⟩
    · right
      exact ⟨fun h2 => hdisj h2 h1, List.mem_reverse.mpr h1⟩

theorem putAll_overflow_witness :
    pool2.p.free.buf = [] ∧ ([(7, 0), (8, 0), (9, 0)].map Prod.fst : List NetConn).Nodup ∧
      pool2.p.free.cap < [((7 : NetConn), (0 : Duration)), (8, 0), (9, 0)].length ∧
      (putAll [(7, 0), (8, 0), (9, 0)] pool2).p.free.buf.length = pool2.p.free.cap ∧
      idleConns (putAll [(7, 0), (8, 0), (9, 0)] pool2)
        = ([((7 : NetConn), (0 : Duration)), (8, 0), (9, 0)].take pool2.p.free.cap).map Prod.fst ∧
      ∃ dropped, (putAll [(7, 0), (8, 0), (9, 0)] pool2).closed = dropped ++ pool2.closed ∧
        dropped.length = [((7 : NetConn), (0 : Duration)), (8, 0), (9, 0)].length
          - pool2.p.free.cap ∧
        dropped.Nodup ∧
        ∀ x ∈ [((7 : NetConn), (0 : Duration)), (8, 0), (9, 0)].map Prod.fst,
          (x ∈ idleConns (putAll [(7, 0), (8, 0), (9, 0)] pool2) ∧ x ∉ dropped) ∨
            (x ∉ idleConns (putAll [(7, 0), (8, 0), (9, 0)] pool2) ∧ x ∈ dropped) :=
  ⟨by decide, by decide, by decide,
    putAll_overflow pool2 [(7, 0), (8, 0), (9, 0)] (by decide) (by decide) (by decide)⟩

/-! ### Sweeps that cannot end -/

theorem timeSince_le_max (now t : Time) : timeSince now t ≤ maxDuration := by
  simp only [timeSince, timeSub, maxDuration, minDuration, Time, Duration] at *
  split_ifs <;> omega

theorem spinInv_step (now : Time) (s : State) (h : SpinInv s) :
    SpinInv (clean (Wake.run now) s) ∧ (clean (Wake.run now) s).closed = s.closed := by
  obtain ⟨hT, hlen, hpc⟩ := h
  obtain ⟨⟨⟨buf, cap⟩, cn, tk, it⟩, cl, pc⟩ := s
  simp only at hT hlen hpc
  subst hT
  rcases hpc with ⟨hpc, hne⟩ | ⟨c, hpc, hlt⟩
  · subst hpc
    cases buf with
    | nil => exact absurd rfl hne
    | cons c rest =>
        have hns : ¬ timeSince now c.lastUsed > maxDuration :=
          not_lt.mpr (timeSince_le_max now c.lastUsed)
        simp only [List.length_cons] at hlen
        simp only [clean, Chan.tryRecv, if_neg hns]
        exact ⟨⟨rfl, by simp only; omega, Or.inr ⟨c, rfl, by simp only; omega⟩⟩, trivial⟩
  · subst hpc
    simp only [clean, Chan.trySend, if_pos hlt]
    refine ⟨⟨rfl, ?_, Or.inl ⟨rfl, by simp⟩⟩, trivial⟩
    simp only [List.length_append, List.length_singleton]
    omega

theorem spinInv_cleanRun (k : Nat) :
    ∀ (clock : Nat → Time) (s : State), SpinInv s →
      SpinInv (cleanRun k clock s) ∧ (cleanRun k clock s).closed = s.closed := by
  induction k with
  | zero => intro clock s h; exact ⟨h, rfl⟩
  | succ k ih =>
      intro clock s h
      obtain ⟨h1, h2⟩ := spinInv_step (clock 0) s h
      obtain ⟨h3, h4⟩ := ih (fun i => clock (i + 1)) _ h1
      exact ⟨h3, h4.trans h2⟩

theorem spinInv_not_returned (s : State) (h : SpinInv s) : s.pc ≠ CleanPC.returned := by
  obtain ⟨-, -, hpc⟩ := h
  rcases hpc with ⟨hpc, -⟩ | ⟨c, hpc, -⟩ <;> rw [hpc] <;> simp

theorem freshSpin_step (T : Duration) (e : conn) (now : Time) (s : State)
    (hf : ¬ timeSince now e.lastUsed > T) (h : FreshSpin T e s) :
    FreshSpin T e (clean (Wake.run now) s) := by
  obtain ⟨hT, hlen, hpc⟩ := h
  obtain ⟨⟨⟨buf, cap⟩, cn, tk, it⟩, cl, pc⟩ := s
  simp only at hT hlen hpc
  subst hT
  rcases hpc with ⟨hpc, hmem⟩ | ⟨c, hpc, hlt, hmem⟩
  · subst hpc
    cases buf with
    | nil => cases hmem
    | cons c rest =>
        simp only [List.length_cons] at hlen
        simp only [clean, Chan.tryRecv]
        by_cases hst : timeSince now c.lastUsed > it
        · rw [if_pos hst]
          have hne : e ≠ c := fun h => hf (h ▸ hst)
          refine ⟨rfl, by simp only; omega, Or.inl ⟨rfl, ?_⟩⟩
          rcases List.mem_cons.mp hmem with h1 | h1
          · exact absurd h1 hne
          · exact h1
        · rw [if_neg hst]
          refine ⟨rfl, by simp only; omega, Or.inr ⟨c, rfl, by simp only; omega, ?_⟩⟩
          rcases List.mem_cons.mp hmem with h1 | h1
          · exact Or.inl h1.symm
          · exact Or.inr h1
  · subst hpc
    simp only [clean, Chan.trySend, if_pos hlt]
    refine ⟨rfl, ?_, Or.inl ⟨rfl, ?_⟩⟩
    · simp only [List.length_append, List.length_singleton]
      omega
    · rcases hmem with h1 | h1
      · rw [h1]; simp
      · exact List.mem_append_left _ h1

theorem freshSpin_cleanRun (T : Duration) (e : conn) (k : Nat) :
    ∀ (clock : Nat → Time) (s : State), (∀ i, ¬ timeSince (clock i) e.lastUsed > T) →
      FreshSpin T e s → FreshSpin T e (cleanRun k clock s) := by
  induction k with
  | zero => intro clock s _ h; exact h
  | succ k ih =>
      intro clock s hf h
      exact ih (fun i => clock (i + 1)) _ (fun i => hf (i + 1))
        (freshSpin_step T e (clock 0) s (hf 0) h)

theorem freshSpin_not_returned (T : Duration) (e : conn) (s : State) (h : FreshSpin T e s) :
    s.pc ≠ CleanPC.returned := by
  obtain ⟨-, -, hpc⟩ := h
  rcases hpc with ⟨hpc, -⟩ | ⟨c, hpc, -⟩ <;> rw [hpc] <;> simp

/-- C11, evaluated on the code.  First input: the pool
`newConnPool(1, math.MaxInt64)` has received connection 7 through `put` and
the ticker fires.  Whatever the clock reads and however many steps the inner
loop of `clean` is given, the loop has not exited: the entry is never stale, it
is received, sent back and received again without end, and connection 7 is
never closed.  Second input: an idle set with arbitrary time stamps
(`poolAged`, timeout 10, entries last used at 100 and 195) swept while the
clock reads 200: the entry last used at 195 is fresh and the loop never
exits. -/
theorem sweep_never_returns (k : Nat) (clock : Nat → Time) :
    newConnPool 1 maxDuration = Except.ok poolMax ∧
      (sweep k clock (put 7 0 poolMax)).pc ≠ CleanPC.returned ∧
      (sweep k clock (put 7 0 poolMax)).closed = [] ∧
      (sweep k (fun _ => 200) poolAged).pc ≠ CleanPC.returned := by
  have h0 : SpinInv (clean Wake.tick (put 7 0 poolMax)) :=
    ⟨rfl, by decide, Or.inl ⟨rfl, by decide⟩⟩
  obtain ⟨h1, h2⟩ := spinInv_cleanRun k clock _ h0
  have h3 : FreshSpin 10 { Conn := 8, lastUsed := 195 } (clean Wake.tick poolAged) :=
    ⟨rfl, by decide, Or.inl ⟨rfl, by decide⟩⟩
  have hf : ¬ timeSince 200 ({ Conn := 8, lastUsed := 195 } : conn).lastUsed > 10 := by decide
  have h4 := freshSpin_cleanRun 10 { Conn := 8, lastUsed := 195 } k (fun _ => 200) _
    (fun _ => hf) h3
  exact ⟨rfl, spinInv_not_returned _ h1, h2, freshSpin_not_returned _ _ _ h4⟩

/-- C12. The `idleTimeout` argument of `put` has no effect: for every state,
connection and two durations the two calls produce the same state (same idle
set with the same stored entry, same closed connections), hence every later
run of events, every later sweep and every later `tryGet` gives the same
result in both. -/
theorem put_idleTimeout_irrelevant (s : State) (nc : NetConn) (d1 d2 : Duration) :
    put nc d1 s = put nc d2 s ∧
      (put nc d1 s).p.free.buf = (put nc d2 s).p.free.buf ∧
      (put nc d1 s).closed = (put nc d2 s).closed ∧
      (∀ es, run es (put nc d1 s) = run es (put nc d2 s)) ∧
      (∀ es, run (Event.put nc d1 :: es) s = run (Event.put nc d2 :: es) s) ∧
      (∀ k clock, sweep k clock (put nc d1 s) = sweep k clock (put nc d2 s)) ∧
      (∀ now, tryGet now (put nc d1 s) = tryGet now (put nc d2 s)) := by
  have h : put nc d1 s = put nc d2 s := rfl
  refine ⟨h, by rw [h], by rw [h], fun es => by rw [h], fun es => ?_, fun k clock => by rw [h],
    fun now => by rw [h]⟩
  simp only [run, step]
  rw [h]

/-- C13. In the pool `newConnPool size T` returns, the period of the ticker
is `T * 3` computed in signed 64-bit arithmetic (congruent to `3 * T` modulo
`2^64` and within the range of `Duration`; equal to `3 * T` when that is in
range), and the stored `idleTimeout` is `T`. -/
theorem newConnPool_period (size : Int) (T : Duration) (s : State)
    (h : newConnPool size T = Except.ok s) :
    s.p.cleanTicker = wrap64 (T * 3) ∧
      (s.p.cleanTicker - T * 3) % 18446744073709551616 = 0 ∧
      minDuration ≤ s.p.cleanTicker ∧ s.p.cleanTicker ≤ maxDuration ∧
      (minDuration ≤ T * 3 ∧ T * 3 ≤ maxDuration ↔ s.p.cleanTicker = T * 3) ∧
      s.p.idleTimeout = T := by
  obtain ⟨-, -, h3⟩ := newConnPool_eq_ok size T s h
  subst h3
  simp only [wrap64, minDuration, maxDuration, Duration] at *
  refine ⟨?_, ?_, ?_, ?_, ?_, ?_⟩ <;> first | trivial | omega

theorem newConnPool_period_witness :
    newConnPool 2 10000000 = Except.ok pool2 ∧
      pool2.p.cleanTicker = wrap64 (10000000 * 3) ∧
      (pool2.p.cleanTicker - 10000000 * 3) % 18446744073709551616 = 0 ∧
      minDuration ≤ pool2.p.cleanTicker ∧ pool2.p.cleanTicker ≤ maxDuration ∧
      (minDuration ≤ 10000000 * 3 ∧ 10000000 * 3 ≤ maxDuration
        ↔ pool2.p.cleanTicker = 10000000 * 3) ∧
      pool2.p.idleTimeout = 10000000 :=
  ⟨rfl, newConnPool_period 2 10000000 pool2 rfl⟩

/-- C14 as stated fails: `newConnPool(-1, 10ms)` panics in `make`, so does
`newConnPool(1 << 62, 10ms)` (size out of range), and `newConnPool(2, 0)`
panics in `time.NewTicker`; none of them returns a pool. -/
theorem newConnPool_panics :
    newConnPool (-1) 10000000 = Except.error Panic.makechanSize ∧
      newConnPool 4611686018427387904 10000000 = Except.error Panic.makechanSize ∧
      newConnPool 2 0 = Except.error Panic.nonPositiveInterval ∧
      ¬ (∀ (size : Int) (T : Duration), ∃ s, newConnPool size T = Except.ok s) := by
  refine ⟨rfl, rfl, rfl, fun h => ?_⟩
  obtain ⟨s, hs⟩ := h 2 0
  have he : newConnPool 2 0 = Except.error Panic.nonPositiveInterval := rfl
  rw [he] at hs
  cases hs

/-- C14, amended.  Whenever `make(chan *conn, size)` and
`time.NewTicker(T * 3)` (the product in signed 64-bit arithmetic) both
succeed, `newConnPool size T` returns a pool: its idle set is the new channel,
empty and of capacity `size`, its ticker has that period, nothing is closed and
the sweeper waits for a tick.  Whenever `make` panics, `newConnPool` panics
with it, and whenever `make` succeeds and `time.NewTicker` panics,
`newConnPool` panics with that; `make` panics for every negative capacity and
`time.NewTicker` for every non-positive period. -/
theorem newConnPool_ok_of_valid (size : Int) (T : Duration) (ch : Chan conn)
    (period : Duration) (hmake : makeChan size = Except.ok ch)
    (htick : NewTicker (wrap64 (T * 3)) = Except.ok period) :
    (newConnPool size T = Except.ok
        { p := { free := ch, canceled := false, cleanTicker := period, idleTimeout := T }
          closed := []
          pc := CleanPC.outerSelect } ∧
      ch.buf = [] ∧ (ch.cap : Int) = size ∧ period = wrap64 (T * 3) ∧ 0 < period) ∧
      (∀ (size' : Int) (T' : Duration) (e : Panic),
        makeChan size' = Except.error e → newConnPool size' T' = Except.error e) ∧
      (∀ (size' : Int) (T' : Duration) (ch' : Chan conn) (e : Panic),
        makeChan size' = Except.ok ch' → NewTicker (wrap64 (T' * 3)) = Except.error e →
          newConnPool size' T' = Except.error e) ∧
      (∀ size' : Int, size' < 0 → makeChan size' = Except.error Panic.makechanSize) ∧
      (∀ d : Duration, d ≤ 0 → NewTicker d = Except.error Panic.nonPositiveInterval) := by
  refine ⟨⟨?_, ?_, ?_, ?_, ?_⟩, ?_, ?_, ?_, ?_⟩
  · simp only [newConnPool, hmake, htick]
  · unfold makeChan at hmake
    split_ifs at hmake
    cases hmake
    rfl
  · unfold makeChan at hmake
    split_ifs at hmake with h1
    cases hmake
    simp only
    omega
  · unfold NewTicker at htick
    split_ifs at htick
    cases htick
    rfl
  · unfold NewTicker at htick
    split_ifs at htick with h1
    cases htick
    exact not_le.mp h1
  · intro size' T' e h
    simp only [newConnPool, h]
  · intro size' T' ch' e h1 h2
    simp only [newConnPool, h1, h2]
  · intro size' h
    unfold makeChan
    rw [if_pos (Or.inl h)]
  · intro d h
    unfold NewTicker
    rw [if_pos h]

theorem newConnPool_ok_of_valid_witness :
    makeChan 2 = Except.ok { buf := [], cap := 2 } ∧
      NewTicker (wrap64 (10000000 * 3)) = Except.ok 30000000 ∧
      ((newConnPool 2 10000000 = Except.ok
          { p := { free := { buf := [], cap := 2 }, canceled := false,
                   cleanTicker := 30000000, idleTimeout := 10000000 }
            closed := []
            pc := CleanPC.outerSelect } ∧
        ({ buf := [], cap := 2 } : Chan conn).buf = [] ∧
        ((({ buf := [], cap := 2 } : Chan conn).cap : Nat) : Int) = 2 ∧
        (30000000 : Duration) = wrap64 (10000000 * 3) ∧ (0 : Duration) < 30000000) ∧
      (∀ (size' : Int) (T' : Duration) (e : Panic),
        makeChan size' = Except.error e → newConnPool size' T' = Except.error e) ∧
      (∀ (size' : Int) (T' : Duration) (ch' : Chan conn) (e : Panic),
        makeChan size' = Except.ok ch' → NewTicker (wrap64 (T' * 3)) = Except.error e →
          newConnPool size' T' = Except.error e) ∧
      (∀ size' : Int, size' < 0 → makeChan size' = Except.error Panic.makechanSize) ∧
      (∀ d : Duration, d ≤ 0 → NewTicker d = Except.error Panic.nonPositiveInterval)) :=
  ⟨rfl, rfl, newConnPool_ok_of_valid 2 10000000 { buf := [], cap := 2 } 30000000 rfl rfl⟩

/-- C15. In every state (idle set empty, partly filled or full; the sweeper at
any point of its code) a call of `put` is one step with one of two outcomes,
the entry stored at the back of the idle set or the connection closed, and a
call of `tryGet` is one step with one of two outcomes, the oldest entry
returned or `found = false`.  Neither outcome depends on where the sweeper is,
and neither call changes that. -/
theorem put_tryGet_never_block (s : State) (nc : NetConn) (d : Duration) (now : Time) :
    ((s.p.free.buf.length < s.p.free.cap ∧
        (put nc d s).p.free.buf = s.p.free.buf ++ [{ Conn := nc, lastUsed := zeroTime }] ∧
        (put nc d s).closed = s.closed) ∨
      (s.p.free.cap ≤ s.p.free.buf.length ∧
        put nc d s = { s with closed := nc :: s.closed })) ∧
    ((∃ c rest, s.p.free.buf = c :: rest ∧
        (tryGet now s).1 = some { c with lastUsed := now } ∧ (tryGet now s).2.1 = true ∧
        (tryGet now s).2.2.p.free.buf = rest ∧ (tryGet now s).2.2.closed = s.closed) ∨
      (s.p.free.buf = [] ∧ tryGet now s = (none, false, s))) ∧
    step (Event.put nc d) s = put nc d s ∧
    step (Event.tryGet now) s = (tryGet now s).2.2 ∧
    (∀ pc, put nc d { s with pc := pc } = { put nc d s with pc := pc }) ∧
    (∀ pc, tryGet now { s with pc := pc }
      = ((tryGet now s).1, (tryGet now s).2.1, { (tryGet now s).2.2 with pc := pc })) := by
  obtain ⟨⟨⟨buf, cap⟩, cn, tk, it⟩, cl, pc⟩ := s
  refine ⟨?_, ?_, rfl, rfl, ?_, ?_⟩
  · by_cases hlt : buf.length < cap
    · left
      simp [put, Chan.trySend, hlt]
    · right
      simp only [put, Chan.trySend, if_neg hlt]
      exact ⟨not_lt.mp hlt, trivial⟩
  · cases buf with
    | nil => right; exact ⟨rfl, rfl⟩
    | cons c rest => left; exact ⟨c, rest, rfl, rfl, rfl, rfl, rfl⟩
  · intro pc'
    simp only [put, Chan.trySend]
    split_ifs <;> rfl
  · intro pc'
    cases buf <;> rfl

/-- C16 as stated fails.  From `newConnPool(1, math.MaxInt64)`: connection 8
is released, the sweeper receives it on a tick and finds it fresh, and before
it sends it back a caller releases connection 9, filling the idle set.  The
sweeper's next step, the send of line 51, then changes nothing at all: the
entry is not closed and the sweeper has not moved on; it waits for a slot. -/
theorem clean_resend_waits :
    newConnPool 1 maxDuration = Except.ok poolMax ∧
      blockedRun.pc = CleanPC.sending { Conn := 8, lastUsed := zeroTime } ∧
      blockedRun.p.free.buf = [{ Conn := 9, lastUsed := zeroTime }] ∧
      blockedRun.p.free.buf.length = blockedRun.p.free.cap ∧
      blockedRun.closed = [] ∧
      (∀ now, step (Event.clean now) blockedRun = blockedRun) ∧
      ¬ (∃ now, 8 ∈ (step (Event.clean now) blockedRun).closed ∧
          (step (Event.clean now) blockedRun).pc = CleanPC.innerSelect) := by
  have hb : ∀ now, step (Event.clean now) blockedRun = blockedRun := fun now => rfl
  refine ⟨rfl, by decide, by decide, by decide, by decide, hb, ?_⟩
  rintro ⟨now, h1, -⟩
  rw [hb now] at h1
  exact absurd h1 (by decide)

/-- C16, amended.  The sweeper's reinsertion is a blocking send: while it
holds an entry `c`, its step does nothing as long as the idle set is full (the
entry is neither closed nor dropped, the sweeper stays where it is), and once
the idle set has room the step appends `c` to the idle set and returns to the
inner `select`; in neither case is anything closed. -/
theorem clean_send_blocks (s : State) (c : conn) (now : Time)
    (hpc : s.pc = CleanPC.sending c) :
    (s.p.free.cap ≤ s.p.free.buf.length → clean (Wake.run now) s = s) ∧
      (s.p.free.buf.length < s.p.free.cap →
        (clean (Wake.run now) s).p.free.buf = s.p.free.buf ++ [c] ∧
        (clean (Wake.run now) s).pc = CleanPC.innerSelect) ∧
      (clean (Wake.run now) s).closed = s.closed := by
  obtain ⟨⟨⟨buf, cap⟩, cn, tk, it⟩, cl, pc⟩ := s
  simp only at hpc
  subst hpc
  simp only [clean, Chan.trySend]
  refine ⟨fun h => ?_, fun h => ?_, ?_⟩
  · rw [if_neg (not_lt.mpr h)]
  · rw [if_pos h]
    exact ⟨rfl, rfl⟩
  · split_ifs <;> rfl

theorem clean_send_blocks_witness :
    (clean (Wake.run nowish) (clean Wake.tick (put 8 0 poolMax))).pc
        = CleanPC.sending { Conn := 8, lastUsed := zeroTime } ∧
      ((clean (Wake.run nowish) (clean Wake.tick (put 8 0 poolMax))).p.free.cap
          ≤ (clean (Wake.run nowish) (clean Wake.tick (put 8 0 poolMax))).p.free.buf.length →
        clean (Wake.run 5) (clean (Wake.run nowish) (clean Wake.tick (put 8 0 poolMax)))
          = clean (Wake.run nowish) (clean Wake.tick (put 8 0 poolMax))) ∧
      ((clean (Wake.run nowish) (clean Wake.tick (put 8 0 poolMax))).p.free.buf.length
          < (clean (Wake.run nowish) (clean Wake.tick (put 8 0 poolMax))).p.free.cap →
        (clean (Wake.run 5)
            (clean (Wake.run nowish) (clean Wake.tick (put 8 0 poolMax)))).p.free.buf
          = (clean (Wake.run nowish) (clean Wake.tick (put 8 0 poolMax))).p.free.buf
              ++ [{ Conn := 8, lastUsed := zeroTime }] ∧
        (clean (Wake.run 5)
            (clean (Wake.run nowish) (clean Wake.tick (put 8 0 poolMax)))).pc
          = CleanPC.innerSelect) ∧
      (clean (Wake.run 5) (clean (Wake.run nowish) (clean Wake.tick (put 8 0 poolMax)))).closed
        = (clean (Wake.run nowish) (clean Wake.tick (put 8 0 poolMax))).closed :=
  ⟨by decide, clean_send_blocks _ { Conn := 8, lastUsed := zeroTime } 5 (by decide)⟩

/-- C17. In every state reached from a pool freshly returned by
`newConnPool size T` through any events (calls of `put` and `tryGet`, ticks,
cancellation, sweeper steps), every idle entry, and the entry the sweeper may
hold, carries the zero time as `lastUsed`.  Consequently, when `T` is below
the largest duration and the sweeper is waiting for a tick, a sweep whose
clock readings are all later than `T` after Go's zero time (as every reading
of a real clock is) closes every idle connection, oldest first, leaves the
idle set empty and ends, however recently the connections were released. -/
theorem zero_stamp_sweep_closes_all (size : Int) (T : Duration) (s0 : State)
    (h : newConnPool size T = Except.ok s0) (es : List Event) :
    (∀ c ∈ (run es s0).p.free.buf, c.lastUsed = zeroTime) ∧
      (∀ c, (run es s0).pc = CleanPC.sending c → c.lastUsed = zeroTime) ∧
      (T < maxDuration → (run es s0).pc = CleanPC.outerSelect →
        ∀ (clock : Nat → Time) (k : Nat), (∀ i, T < clock i) →
          (run es s0).p.free.buf.length + 1 ≤ k →
          (sweep k clock (run es s0)).p.free.buf = [] ∧
            (sweep k clock (run es s0)).closed
              = (idleConns (run es s0)).reverse ++ (run es s0).closed ∧
            (sweep k clock (run es s0)).pc = CleanPC.returned) := by
  obtain ⟨-, hbuf, -, -, hpc0, hT0⟩ := newConnPool_ok size T s0 h
  have hz0 : ZeroStamped s0 :=
    ⟨fun c hc => (by rw [hbuf] at hc; cases hc), fun c hc => (by rw [hpc0] at hc; cases hc)⟩
  obtain ⟨⟨hz1, hz2⟩, hTr⟩ := zeroStamped_run es s0 hz0
  rw [hT0] at hTr
  refine ⟨hz1, hz2, ?_⟩
  intro hT hpc clock k hclock hk
  generalize run es s0 = s at hz1 hz2 hTr hpc hk ⊢
  have htick : clean Wake.tick s = { s with pc := CleanPC.innerSelect } := by
    obtain ⟨p, cl, pc⟩ := s
    simp only at hpc
    subst hpc
    rfl
  have := cleanRun_all_stale s.p.free.buf k clock { s with pc := CleanPC.innerSelect } rfl rfl
    (fun c hc i => by
      have hzc := hz1 c hc
      simp only [hTr]
      rw [hzc]
      exact timeSince_zero_gt T (clock i) hT (hclock i))
    hk
  simp only [sweep, htick, idleConns]
  exact ⟨this.1, this.2.2, this.2.1⟩

theorem zero_stamp_sweep_closes_all_witness :
    newConnPool 2 10000000 = Except.ok pool2 ∧
      ((∀ c ∈ (run [Event.put 7 0, Event.put 8 0, Event.tryGet nowish, Event.put 9 0]
            pool2).p.free.buf, c.lastUsed = zeroTime) ∧
        (∀ c, (run [Event.put 7 0, Event.put 8 0, Event.tryGet nowish, Event.put 9 0]
            pool2).pc = CleanPC.sending c → c.lastUsed = zeroTime) ∧
        ((10000000 : Duration) < maxDuration →
          (run [Event.put 7 0, Event.put 8 0, Event.tryGet nowish, Event.put 9 0]
            pool2).pc = CleanPC.outerSelect →
          ∀ (clock : Nat → Time) (k : Nat), (∀ i, 10000000 < clock i) →
            (run [Event.put 7 0, Event.put 8 0, Event.tryGet nowish, Event.put 9 0]
              pool2).p.free.buf.length + 1 ≤ k →
            (sweep k clock (run [Event.put 7 0, Event.put 8 0, Event.tryGet nowish,
                Event.put 9 0] pool2)).p.free.buf = [] ∧
              (sweep k clock (run [Event.put 7 0, Event.put 8 0, Event.tryGet nowish,
                  Event.put 9 0] pool2)).closed
                = (idleConns (run [Event.put 7 0, Event.put 8 0, Event.tryGet nowish,
                    Event.put 9 0] pool2)).reverse
                  ++ (run [Event.put 7 0, Event.put 8 0, Event.tryGet nowish,
                    Event.put 9 0] pool2).closed ∧
              (sweep k clock (run [Event.put 7 0, Event.put 8 0, Event.tryGet nowish,
                  Event.put 9 0] pool2)).pc = CleanPC.returned)) :=
  ⟨rfl, zero_stamp_sweep_closes_all 2 10000000 pool2 rfl _⟩

/-- C18. The idle set is first in, first out: after `k` connections
`x1 .. xk`, with `k` at most the capacity, have been released one after the
other into an empty pool, the next `k` calls of `tryGet` all report
`found = true` and return wrappers of `x1`, `x2`, ..., `xk` in that order (each
stamped with the time of its call); the idle set is then empty again and
nothing was closed. -/
theorem fifo_order (s : State) (xs : List (NetConn × Duration)) (nows : List Time)
    (hempty : s.p.free.buf = []) (hk : xs.length ≤ s.p.free.cap)
    (hn : nows.length = xs.length) :
    (tryGetAll nows (putAll xs s)).1
        = List.zipWith
            (fun (x : NetConn × Duration) (now : Time) =>
              (some ({ Conn := x.1, lastUsed := now } : conn), true)) xs nows ∧
      (tryGetAll nows (putAll xs s)).1.map (fun r => (r.1.map conn.Conn, r.2))
        = xs.map (fun x => (some x.1, true)) ∧
      (tryGetAll nows (putAll xs s)).2.p.free.buf = [] ∧
      (tryGetAll nows (putAll xs s)).2.closed = s.closed := by
  obtain ⟨hbuf, hcl, -, -⟩ := putAll_spec xs s (by rw [hempty]; simp)
  rw [hempty] at hbuf hcl
  simp only [List.length_nil, Nat.sub_zero, List.nil_append] at hbuf hcl
  rw [List.take_of_length_le hk] at hbuf
  rw [List.drop_of_length_le hk] at hcl
  simp only [List.map_nil, List.reverse_nil, List.nil_append] at hcl
  obtain ⟨h1, h2, h3⟩ := tryGetAll_spec nows (putAll xs s)
    (by rw [hbuf, List.length_map]; omega)
  have hres : (tryGetAll nows (putAll xs s)).1
      = List.zipWith
          (fun (x : NetConn × Duration) (now : Time) =>
            (some ({ Conn := x.1, lastUsed := now } : conn), true)) xs nows := by
    rw [h1, hbuf, List.zipWith_map_left]
  refine ⟨hres, ?_, ?_, ?_⟩
  · rw [hres]
    clear h1 h2 h3 hres hbuf hcl hk hempty
    induction xs generalizing nows with
    | nil => simp
    | cons x xs ih =>
        cases nows with
        | nil => simp at hn
        | cons now nows =>
            simp only [List.length_cons, Nat.add_right_cancel_iff] at hn
            simp only [List.zipWith_cons_cons, List.map_cons, Option.map_some']
            rw [ih nows hn]
  · rw [h2, hbuf, hn]
    simp
  · rw [h3, hcl]

theorem fifo_order_witness :
    pool2.p.free.buf = [] ∧
      [((7 : NetConn), (0 : Duration)), (8, 0)].length ≤ pool2.p.free.cap ∧
      [(100 : Time), 200].length = [((7 : NetConn), (0 : Duration)), (8, 0)].length ∧
      (tryGetAll [100, 200] (putAll [(7, 0), (8, 0)] pool2)).1
        = List.zipWith
            (fun (x : NetConn × Duration) (now : Time) =>
              (some ({ Conn := x.1, lastUsed := now } : conn), true))
            [(7, 0), (8, 0)] [100, 200] ∧
      (tryGetAll [100, 200] (putAll [(7, 0), (8, 0)] pool2)).1.map
          (fun r => (r.1.map conn.Conn, r.2))
        = [((7 : NetConn), (0 : Duration)), (8, 0)].map (fun x => (some x.1, true)) ∧
      (tryGetAll [100, 200] (putAll [(7, 0), (8, 0)] pool2)).2.p.free.buf = [] ∧
      (tryGetAll [100, 200] (putAll [(7, 0), (8, 0)] pool2)).2.closed = pool2.closed :=
  ⟨by decide, by decide, by decide,
    fifo_order pool2 [(7, 0), (8, 0)] [100, 200] (by decide) (by decide) (by decide)⟩

/-- C19 as stated fails.  From `newConnPool(1, math.MaxInt64)` a caller dials
connection 8 and releases it, the ticker fires and the sweeper receives the
entry and finds it fresh.  The ownership contract holds throughout, and in the
state reached connection 8, which was released, is in none of the three
places: not in the idle set, not closed, not held by a caller.  The sweeper
holds it, about to send it back. -/
theorem released_conn_in_sweeper_hand :
    newConnPool 1 maxDuration = Except.ok poolMax ∧
      Legal limboActs { s := poolMax, held := [], dialed := [] } ∧
      Action.release 8 0 ∈ limboActs ∧
      8 ∉ idleConns (actAll limboActs { s := poolMax, held := [], dialed := [] }).s ∧
      8 ∉ (actAll limboActs { s := poolMax, held := [], dialed := [] }).s.closed ∧
      8 ∉ (actAll limboActs { s := poolMax, held := [], dialed := [] }).held ∧
      (actAll limboActs { s := poolMax, held := [], dialed := [] }).s.pc
        = CleanPC.sending { Conn := 8, lastUsed := zeroTime } ∧
      ¬ (List.count 8 (idleConns (actAll limboActs { s := poolMax, held := [], dialed := [] }).s)
          + List.count 8 (actAll limboActs { s := poolMax, held := [], dialed := [] }).s.closed
          + List.count 8 (actAll limboActs { s := poolMax, held := [], dialed := [] }).held
          = 1) := by
  refine ⟨rfl, ?_, ?_, ?_, ?_, ?_, ?_, ?_⟩ <;> decide

/-- C19, amended.  Connection accounting.  Start from a pool with an empty
idle set, nothing closed and the sweeper holding no entry, and let callers
follow the ownership contract, with ticks, cancellation and sweeper steps
interleaved at will.  In the state reached, every connection ever released
occurs exactly once among four places: the idle set, the sweeper's hand (an
entry it has received and not yet sent back), the closed connections and the
callers.  So whenever the sweeper holds no entry, each released connection is
in exactly one of the three places idle set, closed, held by a caller.
Moreover `tryGet` never returns a closed connection, no closed connection is
held by a caller, and no connection is closed twice. -/
theorem connection_accounting (s0 : State) (hempty : s0.p.free.buf = [])
    (hpc : sendingConn s0.pc = []) (hcl : s0.closed = []) (as : List Action)
    (hl : Legal as { s := s0, held := [], dialed := [] }) :
    (∀ x d, Action.release x d ∈ as →
        List.count x (idleConns (actAll as { s := s0, held := [], dialed := [] }).s)
          + List.count x (sendingConn (actAll as { s := s0, held := [], dialed := [] }).s.pc)
          + List.count x (actAll as { s := s0, held := [], dialed := [] }).s.closed
          + List.count x (actAll as { s := s0, held := [], dialed := [] }).held = 1) ∧
      (sendingConn (actAll as { s := s0, held := [], dialed := [] }).s.pc = [] →
        ∀ x d, Action.release x d ∈ as →
          List.count x (idleConns (actAll as { s := s0, held := [], dialed := [] }).s)
            + List.count x (actAll as { s := s0, held := [], dialed := [] }).s.closed
            + List.count x (actAll as { s := s0, held := [], dialed := [] }).held = 1) ∧
      (∀ now x,
        acquired (Action.acquire now) (actAll as { s := s0, held := [], dialed := [] }) = some x →
          x ∉ (actAll as { s := s0, held := [], dialed := [] }).s.closed) ∧
      (∀ x ∈ (actAll as { s := s0, held := [], dialed := [] }).held,
        x ∉ (actAll as { s := s0, held := [], dialed := [] }).s.closed) ∧
      (actAll as { s := s0, held := [], dialed := [] }).s.closed.Nodup := by
  have hinit := accInv_init s0 hempty hpc hcl
  have hinv := accInv_actAll as _ hl hinit
  have hrel := released_dialed as _ hl hinit
  generalize actAll as { s := s0, held := [], dialed := [] } = o at hinv hrel ⊢
  have hle : ∀ x, owners x o + List.count x o.s.closed ≤ 1 := by
    intro x
    have := hinv x
    split_ifs at this <;> omega
  have hone : ∀ x d, Action.release x d ∈ as →
      List.count x (idleConns o.s) + List.count x (sendingConn o.s.pc)
        + List.count x o.s.closed + List.count x o.held = 1 := by
    intro x d hx
    have h1 := hinv x
    rw [if_pos (hrel x d hx)] at h1
    unfold owners at h1
    omega
  refine ⟨hone, ?_, ?_, ?_, ?_⟩
  · intro hs x d hx
    have h1 := hone x d hx
    rw [hs] at h1
    simpa using h1
  · intro now x hx hmem
    have h1 : 1 ≤ List.count x (idleConns o.s) :=
      List.one_le_count_iff.mpr (acquired_mem_idle now o x hx)
    have h2 : 1 ≤ List.count x o.s.closed := List.one_le_count_iff.mpr hmem
    have h3 := hle x
    unfold owners at h3
    omega
  · intro x hx hmem
    have h1 : 1 ≤ List.count x o.held := List.one_le_count_iff.mpr hx
    have h2 : 1 ≤ List.count x o.s.closed := List.one_le_count_iff.mpr hmem
    have h3 := hle x
    unfold owners at h3
    omega
  · refine List.nodup_iff_count_le_one.mpr (fun x => ?_)
    have h3 := hle x
    omega

theorem connection_accounting_witness :
    pool2.p.free.buf = [] ∧ sendingConn pool2.pc = [] ∧ pool2.closed = [] ∧
      Legal accountActs { s := pool2, held := [], dialed := [] } ∧
      ((∀ x d, Action.release x d ∈ accountActs →
          List.count x (idleConns (actAll accountActs { s := pool2, held := [], dialed := [] }).s)
            + List.count x
                (sendingConn (actAll accountActs { s := pool2, held := [], dialed := [] }).s.pc)
            + List.count x (actAll accountActs { s := pool2, held := [], dialed := [] }).s.closed
            + List.count x (actAll accountActs { s := pool2, held := [], dialed := [] }).held
            = 1) ∧
        (sendingConn (actAll accountActs { s := pool2, held := [], dialed := [] }).s.pc = [] →
          ∀ x d, Action.release x d ∈ accountActs →
            List.count x
                (idleConns (actAll accountActs { s := pool2, held := [], dialed := [] }).s)
              + List.count x
                  (actAll accountActs { s := pool2, held := [], dialed := [] }).s.closed
              + List.count x (actAll accountActs { s := pool2, held := [], dialed := [] }).held
              = 1) ∧
        (∀ now x,
          acquired (Action.acquire now)
              (actAll accountActs { s := pool2, held := [], dialed := [] }) = some x →
            x ∉ (actAll accountActs { s := pool2, held := [], dialed := [] }).s.closed) ∧
        (∀ x ∈ (actAll accountActs { s := pool2, held := [], dialed := [] }).held,
          x ∉ (actAll accountActs { s := pool2, held := [], dialed := [] }).s.closed) ∧
        (actAll accountActs { s := pool2, held := [], dialed := [] }).s.closed.Nodup) :=
  ⟨by decide, by decide, by decide, by decide,
    connection_accounting pool2 (by decide) (by decide) (by decide) accountActs (by decide)⟩

end Redjet
